import Mathlib

/-!
Verification of the llmx retrieval core (ingestor-core) against its
natural-language specification.

The Rust sources are shallowly embedded as executable Lean definitions:

* machine integers (`usize`, byte values) become `Nat`;
* `f32` scores become `ℚ`; the one transcendental operation (`f32::ln`,
  used by the BM25 idf) is a parameter `lnQ : ℚ → ℚ` of the scorer, since
  none of the verified properties depend on its value;
* `String` keeps its Lean meaning (a list of unicode scalar values); the
  Rust byte-level operations work on the UTF-8 encoding, which is embedded
  explicitly (`utf8EncodeChar`, `utf8Bytes`);
* `HashMap` accumulators become insertion-ordered association lists and
  `BTreeMap`s become association lists or functions, as noted at each use;
* `Vec::sort_by` (a stable sort) is embedded as `List.insertionSort` with
  the same comparator; `insertionSort` is stable, so it produces the same
  list as the Rust sort;
* the external `sha2::Sha256` digest is a parameter (`hashStr` for string
  inputs, `hashB` for raw byte inputs), the external `String::from_utf8`
  validation is a parameter `utf8decode`, and the per-kind draft
  segmentation of `chunk.rs` (which calls the external `serde_json` and
  `tree_sitter` crates) is a parameter `drafts_of`; every theorem below is
  proved for all values of these parameters, hence in particular for the
  real ones.
-/

/-! ## Character and byte helpers (util.rs) -/

/-- Rust `u8::is_ascii_alphanumeric` on a byte value. -/
def isAlnumByte (b : Nat) : Bool :=
  (48 ≤ b && b ≤ 57) || (65 ≤ b && b ≤ 90) || (97 ≤ b && b ≤ 122)

/-- Rust `u8::to_ascii_lowercase` on a byte value. -/
def byteLower (b : Nat) : Nat :=
  if 65 ≤ b && b ≤ 90 then b + 32 else b

/-- Rust `char::is_ascii_alphanumeric`. -/
def isAlnumChar (c : Char) : Bool := isAlnumByte c.toNat

/-- Rust `char::to_ascii_lowercase`. -/
def charLower (c : Char) : Char :=
  if 65 ≤ c.toNat && c.toNat ≤ 90 then Char.ofNat (c.toNat + 32) else c

/-- UTF-8 encoding of one unicode scalar value, written with division and
remainder (each byte of a multi-byte sequence is `marker + bits`). -/
def utf8EncodeChar (c : Char) : List Nat :=
  let n := c.toNat
  if n < 128 then [n]
  else if n < 2048 then [192 + n / 64, 128 + n % 64]
  else if n < 65536 then [224 + n / 4096, 128 + n / 64 % 64, 128 + n % 64]
  else [240 + n / 262144, 128 + n / 4096 % 64, 128 + n / 64 % 64, 128 + n % 64]

/-- The UTF-8 bytes of a string (Rust `str::as_bytes`). -/
def utf8Bytes (s : String) : List Nat :=
  (s.data.map utf8EncodeChar).flatten

/-- Rust `str::len`: the UTF-8 byte length. -/
def utf8Len (s : String) : Nat := (utf8Bytes s).length

/-! ## Tokenizer (util.rs) -/

/-- `is_all_digits` from util.rs, on the token characters. -/
def is_all_digits (t : List Char) : Bool :=
  t.all fun c => 48 ≤ c.toNat && c.toNat ≤ 57

/-- `is_all_hex` from util.rs: length at least 16 and every character a
decimal digit or `a`..`f`. -/
def is_all_hex (t : List Char) : Bool :=
  if t.length < 16 then false
  else t.all fun c => (48 ≤ c.toNat && c.toNat ≤ 57) || (97 ≤ c.toNat && c.toNat ≤ 102)

/-- `has_vowel` from util.rs. -/
def has_vowel (t : List Char) : Bool :=
  t.any fun c => c = 'a' || c = 'e' || c = 'i' || c = 'o' || c = 'u'

/-- `is_noise_token` from util.rs, on the characters of a token (the token
is ASCII, so Rust byte positions and counts coincide with characters). -/
def is_noise_token (t : List Char) : Bool :=
  if t.isEmpty then true
  else if t = "prev".data || t = "next".data || t = "show".data || t = "more".data then true
  else if t.length = 1 && t ≠ "c".data && t ≠ "r".data then true
  else if t.length > 64 then true
  else if is_all_hex t then true
  else if is_all_digits t then decide (t.length ≥ 3)
  else
    let digit_count := t.countP fun c => 48 ≤ c.toNat && c.toNat ≤ 57
    if digit_count > 0 && t.length ≥ 8 && digit_count * 3 ≥ t.length * 2 then true
    else if t.length ≥ 24 && !has_vowel t then true
    else false

/-- State of the `tokenize` loop: accumulated tokens, current buffer
(kept in reverse for O(1) push), and the too-long flag. -/
structure TokState where
  tokens : List (List Char)
  buf : List Char
  tooLong : Bool

/-- Flush step of `tokenize` (the `else if !buf.is_empty()` branch). -/
def tokFlush (s : TokState) : TokState :=
  if s.buf.isEmpty then s
  else
    let token := s.buf.reverse
    let tokens := if !s.tooLong && !is_noise_token token then s.tokens ++ [token] else s.tokens
    ⟨tokens, [], false⟩

/-- One character of the `tokenize` loop in util.rs. -/
def tokStep (s : TokState) (c : Char) : TokState :=
  if isAlnumChar c then
    if s.buf.length < 96 then ⟨s.tokens, charLower c :: s.buf, s.tooLong⟩
    else ⟨s.tokens, s.buf, true⟩
  else tokFlush s

/-- Trailing-buffer handling of `tokenize` (after the loop; it does not
reset the flag, which is irrelevant because the state is discarded). -/
def tokFinish (s : TokState) : List (List Char) :=
  if !s.buf.isEmpty && !s.tooLong && !is_noise_token s.buf.reverse then
    s.tokens ++ [s.buf.reverse]
  else s.tokens

/-- `tokenize` from util.rs: lowercase ASCII alphanumeric tokens, runs
longer than 96 characters dropped, noise filtered. -/
def tokenize (s : String) : List String :=
  ((s.data.foldl tokStep ⟨[], [], false⟩) |> tokFinish).map List.asString

/-- State of the `tokenize_counts` loop: the counts map is an
insertion-ordered association list (the embedding of `HashMap`; the code
never iterates it, so the order is unobservable), the buffer holds the
live prefix of the 96-byte array. -/
structure CntState where
  counts : List (String × Nat)
  docLen : Nat
  buf : List Nat
  tooLong : Bool

/-- `HashMap::get_mut` + insert-1 update used by `tokenize_counts`. -/
def bumpCount (m : List (String × Nat)) (k : String) : List (String × Nat) :=
  match m with
  | [] => [(k, 1)]
  | (k', v) :: rest => if k' = k then (k', v + 1) :: rest else (k', v) :: bumpCount rest k

/-- The `flush` closure of `tokenize_counts` (the token bytes are ASCII,
decoded back to characters as `str::from_utf8` would). -/
def cntFlush (s : CntState) : CntState :=
  if s.buf.isEmpty || s.tooLong then s
  else
    let token := (s.buf.reverse).map Char.ofNat
    if is_noise_token token then s
    else ⟨bumpCount s.counts token.asString, s.docLen + 1, s.buf, s.tooLong⟩

/-- One byte of the `tokenize_counts` loop in util.rs. -/
def cntStep (s : CntState) (b : Nat) : CntState :=
  if isAlnumByte b then
    if s.buf.length < 96 then ⟨s.counts, s.docLen, byteLower b :: s.buf, s.tooLong⟩
    else ⟨s.counts, s.docLen, s.buf, true⟩
  else if s.buf.length > 0 then
    let s' := cntFlush s
    ⟨s'.counts, s'.docLen, [], false⟩
  else s

/-- `tokenize_counts` from util.rs: byte-level tokenizer that accumulates
term frequencies into `counts` and returns the document length. -/
def tokenize_counts (s : String) (counts : List (String × Nat)) :
    List (String × Nat) × Nat :=
  let st := (utf8Bytes s).foldl cntStep ⟨counts, 0, [], false⟩
  let st := if st.buf.length > 0 then cntFlush st else st
  (st.counts, st.docLen)

/-- Association-list lookup with default 0 (the view of the counts map). -/
def lookupCount (m : List (String × Nat)) (k : String) : Nat :=
  match m with
  | [] => 0
  | (k', v) :: rest => if k' = k then v else lookupCount rest k

/-! ## Small text utilities (util.rs) -/

/-- `estimate_tokens` from util.rs: `ceil(char_count / 4)`. -/
def estimate_tokens (s : String) : Nat := (s.data.length + 3) / 4

/-- `short_id` from util.rs: first `n` characters. -/
def short_id (full : String) (n : Nat) : String := List.asString (full.data.take n)

/-- `snippet` from util.rs.  The truncation test `text.len() <= max_len`
is on the UTF-8 byte length; the taken prefix is `max_len` characters; the
appended marker is three ASCII dots. -/
def snippet (text : String) (max_len : Nat) : String :=
  if utf8Len text ≤ max_len then text
  else List.asString (text.data.take max_len) ++ "..."

/-- Character step of `slugify`. -/
def slugStep (acc : List Char × Bool) (c : Char) : List Char × Bool :=
  let lower := charLower c
  if isAlnumChar lower then (lower :: acc.1, false)
  else if !acc.2 then ('-' :: acc.1, true)
  else acc

/-- Trim `-` from both ends of a character list. -/
def trimDashes (l : List Char) : List Char :=
  ((l.dropWhile (· = '-')).reverse.dropWhile (· = '-')).reverse

/-- `slugify` from util.rs. -/
def slugify (s : String) : String :=
  let out := ((s.data.foldl slugStep ([], false)).1).reverse
  let trimmed := trimDashes out
  if trimmed.isEmpty then "chunk" else List.asString trimmed

/-! ## Data model (model.rs) -/

/-- `ChunkKind` from model.rs. -/
inductive ChunkKind where
  | Markdown | Json | JavaScript | Html | Text | Image | Unknown
deriving DecidableEq, Repr

/-- `Chunk` from model.rs. -/
structure Chunk where
  id : String
  short_id : String
  slug : String
  path : String
  kind : ChunkKind
  chunk_index : Nat
  start_line : Nat
  end_line : Nat
  content : String
  content_hash : String
  token_estimate : Nat
  heading_path : List String
  symbol : Option String
  address : Option String
  asset_path : Option String
deriving DecidableEq, Repr

/-- `FileInput` from model.rs; `data` is the raw byte list. -/
structure FileInput where
  path : String
  data : List Nat
  mtime_ms : Option Nat
  fingerprint_sha256 : Option String
deriving DecidableEq, Repr

/-- `FileMeta` from model.rs. -/
structure FileMeta where
  path : String
  kind : ChunkKind
  bytes : Nat
  sha256 : String
  line_count : Nat
  mtime_ms : Option Nat
  fingerprint_sha256 : Option String
deriving DecidableEq, Repr

/-- `IngestOptions` from model.rs. -/
structure IngestOptions where
  chunk_target_chars : Nat
  chunk_max_chars : Nat
  max_file_bytes : Nat
  max_total_bytes : Nat
  max_chunks_per_file : Nat
deriving DecidableEq, Repr

/-- `IngestWarning` from model.rs. -/
structure IngestWarning where
  path : String
  code : String
  message : String
deriving DecidableEq, Repr

/-- `Posting` from model.rs. -/
structure Posting where
  chunk_id : String
  tf : Nat
  doc_len : Nat
deriving DecidableEq, Repr

/-- `TermEntry` from model.rs. -/
structure TermEntry where
  df : Nat
  postings : List Posting
deriving DecidableEq, Repr

/-- `IndexStats` from model.rs. -/
structure IndexStats where
  total_files : Nat
  total_chunks : Nat
  avg_chunk_chars : Nat
  avg_chunk_tokens : Nat
deriving DecidableEq, Repr

/-- `SearchFilters` from model.rs (`path_pre`, `heading_pre` and
`symbol_pre` embed the source fields whose names end in the word that the
source spells out in full). -/
structure SearchFilters where
  path_exact : Option String
  path_pre : Option String
  kind : Option ChunkKind
  heading_pre : Option String
  symbol_pre : Option String
deriving DecidableEq, Repr

/-- `SearchResult` from model.rs; the `f32` score is embedded as `ℚ`. -/
structure SearchResult where
  chunk_id : String
  chunk_ref : String
  score : ℚ
  path : String
  start_line : Nat
  end_line : Nat
  snippet : String
  heading_path : List String
deriving DecidableEq, Repr

/-- `ChunkDraft` from chunk.rs. -/
structure ChunkDraft where
  kind : ChunkKind
  start_line : Nat
  end_line : Nat
  content : String
  heading_path : List String
  symbol : Option String
  address : Option String
deriving DecidableEq, Repr

/-- `IndexFile` from model.rs.  The `BTreeMap`s `chunk_refs` and
`inverted_index` are embedded as association lists in ascending key
order (the order their iterators produce). -/
structure IndexFile where
  version : Nat
  index_id : String
  files : List FileMeta
  chunks : List Chunk
  chunk_refs : List (String × String)
  inverted_index : List (String × TermEntry)
  stats : IndexStats
  warnings : List IngestWarning
  embeddings : Option (List (List ℚ))
  embedding_model : Option String
deriving DecidableEq, Repr

/-! ## String order and stable sorting

Rust compares `String`s bytewise on the UTF-8 encoding; that order agrees
with the lexicographic order on unicode scalar values, which is what
`lexLtB` computes.  `Vec::sort_by` is a stable sort; `List.insertionSort`
with the comparator `cmp(a,b) != Greater` is also stable, so it yields the
identical list. -/

/-- Strict lexicographic order on character lists (by scalar value). -/
def lexLtB : List Char → List Char → Bool
  | [], [] => false
  | [], _ :: _ => true
  | _ :: _, [] => false
  | a :: as, b :: bs =>
    if a.toNat < b.toNat then true
    else if b.toNat < a.toNat then false
    else lexLtB as bs

/-- Rust `String::cmp` as a strict order. -/
def strLtB (a b : String) : Bool := lexLtB a.data b.data

theorem lexLtB_irrefl (l : List Char) : lexLtB l l = false := by
  induction l with
  | nil => rfl
  | cons a as ih => simp [lexLtB, ih]

theorem lexLtB_asymm (a b : List Char) (h : lexLtB a b = true) : lexLtB b a = false := by
  induction a generalizing b with
  | nil => cases b with
    | nil => simp [lexLtB] at h
    | cons x xs => simp [lexLtB]
  | cons x xs ih =>
    cases b with
    | nil => simp [lexLtB] at h
    | cons y ys =>
      simp only [lexLtB] at h ⊢
      by_cases h1 : x.toNat < y.toNat
      · simp [h1, Nat.not_lt.mpr (Nat.le_of_lt h1), Nat.lt_irrefl]
      · by_cases h2 : y.toNat < x.toNat
        · simp [h1, h2] at h
        · simp only [h1, h2, if_false, if_true, if_neg, ite_false] at h ⊢
          simp [h1, h2, ih _ h]

theorem lexLtB_trans (a b c : List Char) (h1 : lexLtB a b = true)
    (h2 : lexLtB b c = true) : lexLtB a c = true := by
  induction a generalizing b c with
  | nil =>
    cases c with
    | nil =>
      cases b with
      | nil => exact h1
      | cons y ys => simp [lexLtB] at h2
    | cons z zs => simp [lexLtB]
  | cons x xs ih =>
    cases b with
    | nil => simp [lexLtB] at h1
    | cons y ys =>
      cases c with
      | nil => simp [lexLtB] at h2
      | cons z zs =>
        simp only [lexLtB] at h1 h2 ⊢
        by_cases hxy : x.toNat < y.toNat
        · by_cases hyz : y.toNat < z.toNat
          · simp [Nat.lt_trans hxy hyz]
          · by_cases hzy : z.toNat < y.toNat
            · simp [hyz, hzy] at h2
            · have : y.toNat = z.toNat := Nat.le_antisymm (Nat.not_lt.mp hzy) (Nat.not_lt.mp hyz)
              simp [← this, hxy]
        · by_cases hyx : y.toNat < x.toNat
          · simp [hxy, hyx] at h1
          · have hxyeq : x.toNat = y.toNat := Nat.le_antisymm (Nat.not_lt.mp hyx) (Nat.not_lt.mp hxy)
            by_cases hyz : y.toNat < z.toNat
            · simp [hxyeq, hyz]
            · by_cases hzy : z.toNat < y.toNat
              · simp [hyz, hzy] at h2
              · simp only [hxy, hyx, if_false, ite_false, if_neg] at h1
                simp only [hyz, hzy, if_false, ite_false, if_neg] at h2
                simp [hxyeq, hyz, hzy, ih _ _ h1 h2]

theorem lexLtB_total_eq (a b : List Char) (h1 : lexLtB a b = false)
    (h2 : lexLtB b a = false) : a = b := by
  induction a generalizing b with
  | nil => cases b with
    | nil => rfl
    | cons y ys => simp [lexLtB] at h1
  | cons x xs ih =>
    cases b with
    | nil => simp [lexLtB] at h2
    | cons y ys =>
      simp only [lexLtB] at h1 h2
      by_cases hxy : x.toNat < y.toNat
      · simp [hxy] at h1
      · by_cases hyx : y.toNat < x.toNat
        · simp [hxy, hyx] at h2
        · have hx : x.toNat = y.toNat := Nat.le_antisymm (Nat.not_lt.mp hyx) (Nat.not_lt.mp hxy)
          have hc : x = y := by
            have ha := Char.ofNat_toNat x
            have hb := Char.ofNat_toNat y
            rw [← ha, ← hb, hx]
          subst hc
          simp only [hxy, hyx, if_false, ite_false, if_neg] at h1 h2
          rw [ih _ h1 h2]

/-- Packaged facts about a boolean strict order on a key type. -/
structure LtSpec {κ : Type _} (lt : κ → κ → Bool) : Prop where
  trans : ∀ a b c, lt a b = true → lt b c = true → lt a c = true
  asymm : ∀ a b, lt a b = true → lt b a = false
  conn : ∀ a b, lt a b = false → lt b a = false → a = b

theorem strLtB_spec : LtSpec strLtB := by
  refine ⟨?_, ?_, ?_⟩
  · intro a b c h1 h2; exact lexLtB_trans _ _ _ h1 h2
  · intro a b h; exact lexLtB_asymm _ _ h
  · intro a b h1 h2
    cases a with
    | mk da =>
      cases b with
      | mk db =>
        have : da = db := lexLtB_total_eq _ _ h1 h2
        rw [this]

/-- Strict order on `Nat` as a boolean. -/
def natLtB (a b : Nat) : Bool := decide (a < b)

theorem natLtB_spec : LtSpec natLtB := by
  refine ⟨?_, ?_, ?_⟩
  · intro a b c h1 h2
    simp only [natLtB, decide_eq_true_eq] at *
    exact Nat.lt_trans h1 h2
  · intro a b h
    simp only [natLtB, decide_eq_true_eq, decide_eq_false_iff_not] at *
    exact Nat.lt_asymm h
  · intro a b h1 h2
    simp only [natLtB, decide_eq_false_iff_not, Nat.not_lt] at *
    exact Nat.le_antisymm h2 h1

/-- Lexicographic combination of two key orders (the shape of every
`sort_by` comparator in the sources: compare, then on `Equal` compare the
next component). -/
def pairLtB {κ₁ κ₂ : Type _} [DecidableEq κ₁] (lt₁ : κ₁ → κ₁ → Bool)
    (lt₂ : κ₂ → κ₂ → Bool) (a b : κ₁ × κ₂) : Bool :=
  lt₁ a.1 b.1 || (a.1 = b.1 && lt₂ a.2 b.2)

theorem pairLtB_spec {κ₁ κ₂ : Type _} [DecidableEq κ₁] {lt₁ : κ₁ → κ₁ → Bool}
    {lt₂ : κ₂ → κ₂ → Bool} (h₁ : LtSpec lt₁) (h₂ : LtSpec lt₂) :
    LtSpec (pairLtB lt₁ lt₂) := by
  have hirr : ∀ a, lt₁ a a = false := by
    intro a
    by_cases h : lt₁ a a = true
    · have := h₁.asymm a a h; rw [this] at h; exact absurd h (by simp)
    · simpa using h
  refine ⟨?_, ?_, ?_⟩
  · rintro ⟨a1, a2⟩ ⟨b1, b2⟩ ⟨c1, c2⟩ hab hbc
    simp only [pairLtB, Bool.or_eq_true, Bool.and_eq_true, decide_eq_true_eq] at *
    rcases hab with hab | ⟨rfl, hab⟩
    · rcases hbc with hbc | ⟨rfl, hbc⟩
      · exact Or.inl (h₁.trans _ _ _ hab hbc)
      · exact Or.inl hab
    · rcases hbc with hbc | ⟨rfl, hbc⟩
      · exact Or.inl hbc
      · exact Or.inr ⟨rfl, h₂.trans _ _ _ hab hbc⟩
  · rintro ⟨a1, a2⟩ ⟨b1, b2⟩ hab
    simp only [pairLtB, Bool.or_eq_true, Bool.and_eq_true, decide_eq_true_eq] at hab
    simp only [pairLtB, Bool.or_eq_false_iff, Bool.and_eq_false_iff]
    rcases hab with hab | ⟨rfl, hab⟩
    · constructor
      · exact h₁.asymm _ _ hab
      · left
        simp only [decide_eq_false_iff_not]
        intro h
        rw [h] at hab
        rw [hirr a1] at hab
        exact absurd hab (by simp)
    · constructor
      · exact hirr a1
      · right; exact h₂.asymm _ _ hab
  · rintro ⟨a1, a2⟩ ⟨b1, b2⟩ hab hba
    simp only [pairLtB, Bool.or_eq_false_iff, Bool.and_eq_false_iff,
      decide_eq_false_iff_not] at hab hba
    obtain ⟨hab1, hab2⟩ := hab
    obtain ⟨hba1, hba2⟩ := hba
    have he : a1 = b1 := h₁.conn _ _ hab1 hba1
    subst he
    rcases hab2 with h | h
    · exact absurd rfl h
    · rcases hba2 with h' | h'
      · exact absurd rfl h'
      · have := h₂.conn _ _ h h'
        rw [this]

/-- `Vec::sort_by` with the ascending comparator `le` (stable; equal to
`insertionSort`, which is also stable). -/
def sortByB {α : Type _} (le : α → α → Bool) (l : List α) : List α :=
  List.insertionSort (fun a b => le a b = true) l

/-- A `sort_by` comparator `cmp(key a, key b) != Greater`. -/
def keyLe {α κ : Type _} (lt : κ → κ → Bool) (key : α → κ) (a b : α) : Bool :=
  !(lt (key b) (key a))

theorem sortByB_perm {α : Type _} (le : α → α → Bool) (l : List α) :
    (sortByB le l).Perm l :=
  List.perm_insertionSort _ l

theorem keyLe_sorted {α κ : Type _} (lt : κ → κ → Bool) (key : α → κ)
    (hs : LtSpec lt) (l : List α) :
    List.Sorted (fun a b => keyLe lt key a b = true) (sortByB (keyLe lt key) l) := by
  letI : IsTotal α (fun a b => keyLe lt key a b = true) := by
    constructor
    intro a b
    simp only [keyLe, Bool.not_eq_true']
    by_cases h : lt (key b) (key a) = true
    · right; exact hs.asymm _ _ h
    · left; simpa using h
  letI : IsTrans α (fun a b => keyLe lt key a b = true) := by
    constructor
    intro a b c hab hbc
    simp only [keyLe, Bool.not_eq_true'] at *
    by_cases hca : lt (key c) (key a) = true
    · by_cases hbc' : lt (key b) (key c) = true
      · have : lt (key b) (key a) = true := hs.trans _ _ _ hbc' hca
        rw [this] at hab
        exact absurd hab (by simp)
      · have he : key b = key c := hs.conn _ _ (by simpa using hbc') hbc
        rw [← he] at hca
        rw [hca] at hab
        exact absurd hab (by simp)
    · simpa using hca
  exact List.sorted_insertionSort _ l

/-- Sort key of the final chunk sort in lib.rs: `(path, start_line)`. -/
def ckey (c : Chunk) : String × Nat := (c.path, c.start_line)

/-- Strict order on `(path, start_line)` keys. -/
def ckeyLtB : String × Nat → String × Nat → Bool := pairLtB strLtB natLtB

theorem ckeyLtB_spec : LtSpec ckeyLtB := pairLtB_spec strLtB_spec natLtB_spec

/-- The chunk comparator of `chunks.sort_by` in lib.rs. -/
def chunkLeB : Chunk → Chunk → Bool := keyLe ckeyLtB ckey

/-- Sort key of `build_chunk_refs` in util.rs:
`(path, start_line, end_line, id)`. -/
def rkey (c : Chunk) : String × (Nat × (Nat × String)) :=
  (c.path, (c.start_line, (c.end_line, c.id)))

/-- Strict order on ref keys. -/
def rkeyLtB : String × (Nat × (Nat × String)) → String × (Nat × (Nat × String)) → Bool :=
  pairLtB strLtB (pairLtB natLtB (pairLtB natLtB strLtB))

theorem rkeyLtB_spec : LtSpec rkeyLtB :=
  pairLtB_spec strLtB_spec (pairLtB_spec natLtB_spec (pairLtB_spec natLtB_spec strLtB_spec))

/-- The comparator of `build_chunk_refs`. -/
def refLeB : Chunk → Chunk → Bool := keyLe rkeyLtB rkey

/-- The comparator of `files.sort_by(|a, b| a.path.cmp(&b.path))`. -/
def inputLeB (a b : FileInput) : Bool := keyLe strLtB FileInput.path a b

/-- The comparator of `file_metas.sort_by(|a, b| a.path.cmp(&b.path))`. -/
def metaLeB (a b : FileMeta) : Bool := keyLe strLtB FileMeta.path a b

/-- The comparator of `keep_paths_sorted.sort()`. -/
def pathLeB (a b : String) : Bool := keyLe strLtB id a b

/-! ## Path utilities (util.rs and lib.rs) -/

/-- The final path component (`Path::file_name`, for ordinary paths). -/
def fileNameOf (p : String) : List Char :=
  ((p.data.splitOn '/').getLastD [])

/-- `Path::extension`: the portion of the file name after the final dot,
absent when there is no dot or when the only dot is the leading one. -/
def extensionOf (p : String) : Option (List Char) :=
  let name := fileNameOf p
  if name.contains '.' then
    let ext := ((name.reverse).takeWhile (· ≠ '.')).reverse
    if name.length - ext.length - 1 = 0 then none else some ext
  else none

/-- `detect_kind` from util.rs: pure function of the lowercase extension. -/
def detect_kind (path : String) : ChunkKind :=
  match (extensionOf path).map (fun e => (e.map charLower).asString) with
  | some "md" | some "markdown" => ChunkKind.Markdown
  | some "json" => ChunkKind.Json
  | some "js" | some "ts" | some "tsx" => ChunkKind.JavaScript
  | some "html" | some "htm" => ChunkKind.Html
  | some "xml" => ChunkKind.Text
  | some "txt" | some "log" | some "jsonl" | some "csv" | some "ini"
  | some "cfg" | some "conf" => ChunkKind.Text
  | some "png" | some "jpg" | some "jpeg" | some "webp" | some "gif"
  | some "bmp" => ChunkKind.Image
  | _ => ChunkKind.Unknown

/-- Split a character list at newline characters, keeping empty pieces. -/
def splitNl : List Char → List (List Char)
  | [] => [[]]
  | c :: rest =>
    if c = '\n' then [] :: splitNl rest
    else
      match splitNl rest with
      | [] => [[c]]
      | p :: ps => (c :: p) :: ps

/-- Drop one trailing carriage return (Rust `str::lines` line endings). -/
def stripCr (l : List Char) : List Char :=
  if l.getLast? = some '\r' then l.dropLast else l

/-- Rust `str::lines`: pieces between newlines; a final trailing newline
produces no extra empty line. -/
def rustLines (s : String) : List String :=
  let pieces := splitNl s.data
  let pieces := if pieces.getLast? = some [] then pieces.dropLast else pieces
  pieces.map fun l => (stripCr l).asString

/-- `text.lines().count().max(1)` as used throughout lib.rs and chunk.rs. -/
def rustLineCount (s : String) : Nat := max (rustLines s).length 1

/-- `sanitize_zip_path` from lib.rs. -/
def sanitize_zip_path (input : String) : String :=
  let replaced := input.data.map fun c => if c = '\\' then '/' else c
  let parts := (replaced.splitOn '/').filter fun part =>
    !(part.isEmpty || part = ".".data || part = "..".data)
  String.intercalate "/" (parts.map List.asString)

/-! ## Base-36 refs (build_chunk_refs in util.rs) -/

/-- The digit characters of the base-36 alphabet. -/
def base36digit (n : Nat) : Char :=
  (("0123456789abcdefghijklmnopqrstuvwxyz".data).getD n '0')

/-- Most-significant-first base-36 digits of a positive value; the first
argument is fuel (the value itself suffices). -/
def base36go : Nat → Nat → List Char
  | 0, _ => []
  | _ + 1, 0 => []
  | fuel + 1, v => base36go fuel (v / 36) ++ [base36digit (v % 36)]

/-- The `base36` helper inside `build_chunk_refs`. -/
def base36 (v : Nat) : String :=
  if v = 0 then "0" else (base36go v v).asString

/-- Left-pad with a character to a given width (`format!` `{:0>width$}`). -/
def leftPad (c : Char) (w : Nat) (s : List Char) : List Char :=
  List.replicate (w - s.length) c ++ s

/-- The body of the ref-assignment loop of `build_chunk_refs`: builds
`(chunk_id, ref)` pairs in ref order, tracking the `seen` set. -/
def buildRefsGo (width : Nat) : List Chunk → Nat → List String → List (String × String)
  | [], _, _ => []
  | c :: rest, idx, seen =>
    let raw := (base36 (idx + 1)).data
    let ref0 := "c" ++ (leftPad '0' width raw).asString
    let refS := if seen.contains ref0 then ref0 ++ "-" ++ toString (idx + 1) else ref0
    (c.id, refS) :: buildRefsGo width rest (idx + 1) (refS :: seen)

/-- `build_chunk_refs` from util.rs.  The result embeds the returned
`BTreeMap<chunk_id, ref>`: pairs sorted by ascending chunk id (the order
the map iterates in). -/
def build_chunk_refs (chunks : List Chunk) : List (String × String) :=
  let sorted := sortByB refLeB chunks
  let width := max (base36 (max chunks.length 1)).length 4
  let pairs := buildRefsGo width sorted 0 []
  sortByB (keyLe strLtB Prod.fst) pairs

/-! ## Inverted index and stats (index.rs) -/

/-- Push a posting onto a term entry of the term map (the embedding of
`term_map.entry(token).or_default().push(..)`; only the per-term multiset
is observable because postings are re-sorted by chunk id afterwards). -/
def upsertTerm (m : List (String × List Posting)) (t : String) (p : Posting) :
    List (String × List Posting) :=
  match m with
  | [] => [(t, [p])]
  | (t', ps) :: rest =>
    if t' = t then (t', ps ++ [p]) :: rest else (t', ps) :: upsertTerm rest t p

/-- Per-chunk part of `build_inverted_index`: tokenize the content into a
fresh counts map, skip empty documents, then push one posting per term. -/
def addChunkPostings (m : List (String × List Posting)) (c : Chunk) :
    List (String × List Posting) :=
  let tc := tokenize_counts c.content []
  if tc.2 = 0 then m
  else tc.1.foldl (fun m kv => upsertTerm m kv.1 ⟨c.id, kv.2, tc.2⟩) m

/-- The posting sort `postings.sort_by(|a, b| a.0.cmp(&b.0))`. -/
def postingLeB (a b : Posting) : Bool := keyLe strLtB Posting.chunk_id a b

/-- `build_inverted_index` from index.rs; the final `BTreeMap` is the
association list in ascending term order. -/
def build_inverted_index (chunks : List Chunk) : List (String × TermEntry) :=
  let m := chunks.foldl addChunkPostings []
  (sortByB (keyLe strLtB Prod.fst) m).map fun p =>
    (p.1, ⟨p.2.length, sortByB postingLeB p.2⟩)

/-- `compute_stats` from index.rs. -/
def compute_stats (files : List FileMeta) (chunks : List Chunk) : IndexStats :=
  let total_chunks := chunks.length
  let total_files := files.length
  let avg_chunk_chars :=
    if total_chunks = 0 then 0
    else (chunks.map fun c => utf8Len c.content).sum / total_chunks
  let avg_chunk_tokens :=
    if total_chunks = 0 then 0
    else (chunks.map Chunk.token_estimate).sum / total_chunks
  ⟨total_files, total_chunks, avg_chunk_chars, avg_chunk_tokens⟩

/-! ## Filters and BM25 search (index.rs) -/

/-- Rust `str::starts_with` (a bytewise check on the UTF-8 encoding). -/
def strStarts (s pre : String) : Bool := (utf8Bytes pre).isPrefixOf (utf8Bytes s)

/-- `heading_matches_prefix` from index.rs: the incremental byte loop
decides exactly whether the filter string is a byte-prefix of the
`/`-joined heading path (for an empty heading path it reduces to the
filter being empty, which the uniform formulation also gives). -/
def heading_matches (heading_path : List String) (pre : String) : Bool :=
  strStarts (String.intercalate "/" heading_path) pre

/-- `passes_filters` from index.rs. -/
def passes_filters (c : Chunk) (f : SearchFilters) : Bool :=
  (match f.path_exact with
   | some exact => c.path = exact
   | none => true) &&
  (match f.path_pre with
   | some pre => strStarts c.path pre
   | none => true) &&
  (match f.kind with
   | some k => c.kind = k
   | none => true) &&
  (match f.heading_pre with
   | some pre => heading_matches c.heading_path pre
   | none => true) &&
  (match f.symbol_pre with
   | some pre =>
     match c.symbol with
     | some symbol => strStarts symbol pre
     | none => false
   | none => true)

/-- The `HashMap<&str, &Chunk>` built from the chunk list: later inserts
for a duplicate id win, so lookup keeps the last matching chunk. -/
def findChunk (chunks : List Chunk) (id : String) : Option Chunk :=
  chunks.foldl (fun acc c => if c.id = id then some c else acc) none

/-- `chunk_refs.get(id)` on the association-list map. -/
def lookupRef (refs : List (String × String)) (id : String) : Option String :=
  (refs.find? fun p => p.1 = id).map Prod.snd

/-- `scores.entry(id).or_insert(0.0) += v` on the insertion-ordered
association list embedding the `HashMap` (a fresh entry holds `0.0 + v`,
which is `v`). -/
def addScore (m : List (String × ℚ)) (k : String) (v : ℚ) : List (String × ℚ) :=
  match m with
  | [] => [(k, v)]
  | (k', x) :: rest => if k' = k then (k', x + v) :: rest else (k', x) :: addScore rest k v

/-- The descending score sort
`sort_by(|a, b| b.score.partial_cmp(&a.score)...)` (`ℚ` has no NaN, so
`unwrap_or(Equal)` never fires). -/
def sortScoresDesc (l : List SearchResult) : List SearchResult :=
  List.insertionSort (fun a b => b.score ≤ a.score) l

/-- Build the `SearchResult` record of `search_index`. -/
def mkSearchResult (chunk_refs : List (String × String)) (c : Chunk) (score : ℚ) :
    SearchResult :=
  { chunk_id := c.id
    chunk_ref := (lookupRef chunk_refs c.id).getD c.short_id
    score := score
    path := c.path
    start_line := c.start_line
    end_line := c.end_line
    snippet := snippet c.content 200
    heading_path := c.heading_path }

/-- `search_index` from index.rs (BM25, k1 = 1.5, b = 0.75).  `lnQ`
stands for `f32::ln`. -/
def search_index (lnQ : ℚ → ℚ) (chunks : List Chunk)
    (inverted : List (String × TermEntry)) (chunk_refs : List (String × String))
    (query : String) (filters : SearchFilters) (limit : Nat) : List SearchResult :=
  let tokens := tokenize query
  if tokens.isEmpty then []
  else
    let doc_count : ℚ := (max chunks.length 1 : Nat)
    let avg_doc_len : ℚ :=
      if chunks.isEmpty then 1
      else ((chunks.map Chunk.token_estimate).sum : ℚ) / (chunks.length : ℚ)
    let k1 : ℚ := 3 / 2
    let b : ℚ := 3 / 4
    let scores := tokens.foldl (fun scores token =>
      match inverted.find? (fun p => p.1 = token) with
      | none => scores
      | some entry =>
        let df : ℚ := entry.2.df
        let idf := lnQ ((doc_count - df + 1 / 2) / (df + 1 / 2) + 1)
        entry.2.postings.foldl (fun scores posting =>
          match findChunk chunks posting.chunk_id with
          | none => scores
          | some chunk =>
            if !passes_filters chunk filters then scores
            else
              let dl : ℚ := posting.doc_len
              let tf : ℚ := posting.tf
              let denom := tf + k1 * (1 - b + b * (dl / avg_doc_len))
              addScore scores posting.chunk_id (idf * (tf * (k1 + 1)) / denom))
          scores) []
    let results := scores.filterMap fun p =>
      (findChunk chunks p.1).map fun chunk => mkSearchResult chunk_refs chunk p.2
    (sortScoresDesc results).take limit

/-! ## Reciprocal rank fusion (rrf.rs) -/

/-- `RankedResult` from rrf.rs. -/
structure RankedResult where
  id : String
  rank : Nat
deriving DecidableEq, Repr

/-- `RrfConfig` from rrf.rs (`DEFAULT_K = 60`). -/
structure RrfConfig where
  k : Nat
deriving DecidableEq, Repr

/-- `RrfConfig::default()`. -/
def rrfDefault : RrfConfig := ⟨60⟩

/-- `rrf_fusion` from rrf.rs: accumulate `1 / (k + rank + 1)` per
occurrence, sort by score descending, truncate. -/
def rrf_fusion (result_lists : List (List RankedResult)) (config : RrfConfig)
    (limit : Nat) : List (String × ℚ) :=
  let scores := result_lists.foldl (fun m results =>
    results.foldl (fun m r => addScore m r.id (1 / ((config.k + r.rank + 1 : Nat) : ℚ))) m) []
  (List.insertionSort (fun a b : String × ℚ => b.2 ≤ a.2) scores).take limit

/-- `to_ranked_results` from rrf.rs. -/
def to_ranked_results (results : List (String × ℚ)) : List RankedResult :=
  results.enum.map fun p => ⟨p.2.1, p.1⟩

/-! ## Search handler budget phase and get-chunk handler (handlers/mod.rs) -/

/-- `SearchResultOutput` from handlers/types.rs. -/
structure SearchResultOutput where
  chunk_id : String
  score : ℚ
  path : String
  start_line : Nat
  end_line : Nat
  content : String
  symbol : Option String
  heading_path : List String
deriving DecidableEq, Repr

/-- `SearchOutput` from handlers/types.rs. -/
structure SearchOutput where
  results : List SearchResultOutput
  truncated_ids : Option (List String)
  total_matches : Nat
deriving DecidableEq, Repr

/-- The output record the budget loop pushes for an included result. -/
def budgetOut (r : SearchResult) (chunk : Chunk) : SearchResultOutput :=
  ⟨r.chunk_id, r.score, r.path, r.start_line, r.end_line, chunk.content,
    chunk.symbol, r.heading_path⟩

/-- The token-budget loop of `llmx_search_handler`: one iteration looks up
the chunk (`None` embeds the `context("Chunk not found")` bail), includes
the result when it fits the budget and otherwise records it as truncated,
and stops as soon as the included results reach `limit`. -/
def budgetGo (chunks : List Chunk) (limit maxTokens : Nat) :
    List SearchResult → List SearchResultOutput → Nat → List String →
    Option (List SearchResultOutput × List String)
  | [], res, _, trunc => some (res, trunc)
  | r :: rest, res, used, trunc =>
    match chunks.find? (fun c => c.id = r.chunk_id) with
    | none => none
    | some chunk =>
      if used + chunk.token_estimate ≤ maxTokens then
        let res' := res ++ [budgetOut r chunk]
        if res'.length ≥ limit then some (res', trunc)
        else budgetGo chunks limit maxTokens rest res' (used + chunk.token_estimate) trunc
      else
        let trunc' := trunc ++ [r.chunk_id]
        if res.length ≥ limit then some (res, trunc')
        else budgetGo chunks limit maxTokens rest res used trunc'

/-- The budget phase of `llmx_search_handler` on the ranked candidate
list, wrapped into `SearchOutput` exactly as the handler does. -/
def budgetPhase (chunks : List Chunk) (search_results : List SearchResult)
    (limit maxTokens : Nat) : Option SearchOutput :=
  (budgetGo chunks limit maxTokens search_results [] 0 []).map fun p =>
    ⟨p.1, if p.2.isEmpty then none else some p.2, search_results.length⟩

/-- `ChunkOutput` from handlers/types.rs. -/
structure ChunkOutput where
  chunk_id : String
  path : String
  start_line : Nat
  end_line : Nat
  content : String
  symbol : Option String
  heading_path : List String
  token_estimate : Nat
deriving DecidableEq, Repr

/-- The record `llmx_get_chunk_handler` builds from a chunk. -/
def chunkOut (c : Chunk) : ChunkOutput :=
  ⟨c.id, c.path, c.start_line, c.end_line, c.content, c.symbol,
    c.heading_path, c.token_estimate⟩

/-- The lookup of `llmx_get_chunk_handler` (after the index is loaded):
exact id match, then ref match (`chunk_refs` iterated in ascending key
order), then first id-prefix match. -/
def llmx_get_chunk (chunks : List Chunk) (chunk_refs : List (String × String))
    (q : String) : Option ChunkOutput :=
  let step1 := chunks.find? fun c => c.id = q
  let step2 :=
    match step1 with
    | some c => some c
    | none =>
      match chunk_refs.find? (fun p : String × String => p.2 = q) with
      | some p => chunks.find? fun c => c.id = p.1
      | none => none
  let step3 :=
    match step2 with
    | some c => some c
    | none => chunks.find? fun c => strStarts c.id q
  step3.map chunkOut

/-! ## Ingest pipeline (lib.rs)

The pipeline is parameterized by the external collaborators listed in the
header: `hashStr`/`hashB` embed `sha256_hex` on string and raw-byte
input, `utf8decode` embeds `String::from_utf8(..).ok()`, and `drafts_of`
embeds the per-kind draft segmentation dispatch of `chunk_file` (the
`match kind` in chunk.rs). -/

section Pipeline

variable (hashStr : String → String) (hashB : List Nat → String)
variable (utf8decode : List Nat → Option String)
variable (drafts_of : String → String → ChunkKind → IngestOptions → List ChunkDraft)

/-- `strip_extension` from chunk.rs (`rsplit_once` at the final dot,
keeping the name when the stem would be empty). -/
def strip_extension (name : String) : String :=
  if name.data.contains '.' then
    let ext := ((name.data.reverse).takeWhile (· ≠ '.')).reverse
    let stem := name.data.take (name.data.length - ext.length - 1)
    if stem.isEmpty then name else stem.asString
  else name

/-- `truncate_slug` from chunk.rs: byte-length fast path, character
truncation, then dash trimming at both ends. -/
def truncate_slug (input : String) (max_len : Nat) : String :=
  let truncated := if utf8Len input ≤ max_len then input.data else input.data.take max_len
  (trimDashes truncated).asString

/-- The `while changed` loop of `strip_redundant_prefix` in chunk.rs with
explicit fuel; for a non-empty base each pass removes at least one
character, so `ctx.length` passes suffice (with an empty base the Rust
loop would not terminate, but slugified bases are never empty). -/
def stripRedundantGo (base : List Char) : Nat → List Char → List Char
  | 0, ctx => ctx
  | fuel + 1, ctx =>
    if base.isPrefixOf ctx then
      stripRedundantGo base fuel ((ctx.drop base.length).dropWhile (· = '-'))
    else ctx

/-- `strip_redundant_prefix` from chunk.rs. -/
def stripRedundant (context base : String) : String :=
  (stripRedundantGo base.data (context.data.length + 1) context.data).asString

/-- `make_slug` from chunk.rs. -/
def make_slug (path : String) (kind : ChunkKind) (heading_path : List String)
    (symbol : Option String) (address : Option String)
    (start_line end_line : Nat) : String :=
  let base_name := ((path.data.splitOn '/').getLastD []).asString
  let base_stem := strip_extension base_name
  let base_limit := if kind = ChunkKind.Image then 72 else 28
  let base_slug := truncate_slug (slugify base_stem) base_limit
  let raw_context : Option String :=
    match heading_path.getLast? with
    | some last => some last
    | none =>
      match symbol with
      | some s => some s
      | none => address
  let context_slug :=
    ((raw_context.map fun ctx =>
        truncate_slug (stripRedundant (slugify ctx) base_slug) 44).filter
      fun ctx => !ctx.isEmpty && ctx ≠ "chunk" && ctx ≠ base_slug)
  let slug :=
    match context_slug with
    | some ctx => base_slug ++ "--" ++ ctx
    | none => base_slug
  let slug :=
    if kind = ChunkKind.Text then
      slug ++ "-l" ++ toString start_line ++ "-" ++ toString end_line
    else slug
  truncate_slug slug 96

/-- The loop body of `finalize_chunks` in chunk.rs; `counts` is the
per-file `BTreeMap<content_hash, occurrence>` as a function. -/
def finalize_go (path : String) : List ChunkDraft → Nat → (String → Nat) → List Chunk
  | [], _, _ => []
  | d :: rest, index, counts =>
    let content_hash := hashStr d.content
    let occurrence := counts content_hash
    let counts' := fun h => if h = content_hash then occurrence + 1 else counts h
    let id := hashStr (path ++ "\n" ++ content_hash ++ "\n" ++ toString occurrence)
    { id := id
      short_id := short_id id 12
      slug := make_slug path d.kind d.heading_path d.symbol d.address d.start_line d.end_line
      path := path
      kind := d.kind
      chunk_index := index
      start_line := d.start_line
      end_line := d.end_line
      content := d.content
      content_hash := content_hash
      token_estimate := estimate_tokens d.content
      heading_path := d.heading_path
      symbol := d.symbol
      address := d.address
      asset_path := none } :: finalize_go path rest (index + 1) counts'

/-- `finalize_chunks` from chunk.rs. -/
def finalize_chunks (path : String) (drafts : List ChunkDraft) : List Chunk :=
  finalize_go hashStr path drafts 0 fun _ => 0

/-- `chunk_file` from chunk.rs: per-kind drafts, then finalization. -/
def chunk_file (path text : String) (kind : ChunkKind) (options : IngestOptions) :
    List Chunk :=
  finalize_chunks hashStr path (drafts_of path text kind options)

/-- The accumulating state of the per-file ingest loop. -/
structure PipState where
  total_bytes : Nat
  warnings : List IngestWarning
  file_metas : List FileMeta
  chunks : List Chunk
deriving DecidableEq, Repr

/-- The tail of the per-file loop shared by ingest and update: apply the
`max_chunks_per_file` truncation, then append the chunks and the
`FileMeta`. -/
def afterChunks (options : IngestOptions) (s : PipState) (total_bytes : Nat)
    (path : String) (kind : ChunkKind) (bytes_len : Nat) (file_hash : String)
    (line_count : Nat) (mtime_ms : Option Nat) (fingerprint_sha256 : Option String)
    (file_chunks : List Chunk) : PipState :=
  let warnings :=
    if file_chunks.length > options.max_chunks_per_file then
      s.warnings ++ [⟨path, "max_chunks_per_file", "Chunk limit exceeded; file truncated."⟩]
    else s.warnings
  let file_chunks :=
    if file_chunks.length > options.max_chunks_per_file then
      file_chunks.take options.max_chunks_per_file
    else file_chunks
  { total_bytes := total_bytes
    warnings := warnings
    file_metas := s.file_metas ++
      [⟨path, kind, bytes_len, file_hash, line_count, mtime_ms, fingerprint_sha256⟩]
    chunks := s.chunks ++ file_chunks }

/-- The chunking part of the per-file loop (after the size gates): image
files are chunked without UTF-8 decoding and get their `asset_path`;
other files are decoded (a failure warns `utf8` and skips) and chunked. -/
def chunkFresh (options : IngestOptions) (s : PipState) (total_bytes : Nat)
    (f : FileInput) (kind : ChunkKind) (file_hash : String) : PipState :=
  if kind = ChunkKind.Image then
    let cs := (chunk_file hashStr drafts_of f.path "" kind options).map fun c =>
      { c with asset_path := some ("images/" ++ sanitize_zip_path f.path) }
    afterChunks options s total_bytes f.path kind f.data.length file_hash 1
      f.mtime_ms f.fingerprint_sha256 cs
  else
    match utf8decode f.data with
    | none =>
      { s with
        total_bytes := total_bytes
        warnings := s.warnings ++
          [⟨f.path, "utf8", "File is not valid UTF-8; file skipped."⟩] }
    | some text =>
      afterChunks options s total_bytes f.path kind f.data.length file_hash
        (rustLineCount text) f.mtime_ms f.fingerprint_sha256
        (chunk_file hashStr drafts_of f.path text kind options)

/-- One iteration of the `ingest_files` loop in lib.rs. -/
def ingestStep (options : IngestOptions) (s : PipState) (f : FileInput) : PipState :=
  if s.total_bytes + f.data.length > options.max_total_bytes then
    { s with warnings := s.warnings ++
        [⟨f.path, "max_total_bytes", "Total size limit exceeded; file skipped."⟩] }
  else if f.data.length > options.max_file_bytes then
    { s with warnings := s.warnings ++
        [⟨f.path, "max_file_bytes", "File size limit exceeded; file skipped."⟩] }
  else
    chunkFresh hashStr utf8decode drafts_of options s (s.total_bytes + f.data.length) f
      (detect_kind f.path) (hashB f.data)

/-- `compute_index_id` from lib.rs. -/
def compute_index_id (files : List FileMeta) : String :=
  hashStr (files.foldl (fun seed f => seed ++ f.path ++ "\n" ++ f.sha256 ++ "\n") "")

/-- The common epilogue of the three build functions in lib.rs: sort the
chunks by `(path, start_line)`, derive refs, inverted index, stats and
the index id. -/
def mkIndexFile (st : PipState) (file_metas : List FileMeta) : IndexFile :=
  let chunks := sortByB chunkLeB st.chunks
  { version := 1
    index_id := compute_index_id hashStr file_metas
    files := file_metas
    chunks := chunks
    chunk_refs := build_chunk_refs chunks
    inverted_index := build_inverted_index chunks
    stats := compute_stats file_metas chunks
    warnings := st.warnings
    embeddings := none
    embedding_model := none }

/-- `ingest_files` from lib.rs. -/
def ingest_files (files : List FileInput) (options : IngestOptions) : IndexFile :=
  let sorted := sortByB inputLeB files
  let st := sorted.foldl (ingestStep hashStr hashB utf8decode drafts_of options)
    ⟨0, [], [], []⟩
  mkIndexFile hashStr st st.file_metas

/-- The per-path group of previous chunks (`chunk_map` in lib.rs groups
`prev.chunks` by path with per-path order preserved; an entry exists only
when the group is non-empty). -/
def initChunkMap (chunks : List Chunk) : String → Option (List Chunk) :=
  fun p =>
    let g := chunks.filter fun c => c.path = p
    if g.isEmpty then none else some g

/-- The `prev_map` construction of lib.rs: walk `prev.files`, and for the
first meta of a path whose chunk group is still present, take the group
(`chunk_map.remove`) and bind the pair; later metas of the same path find
the group gone. -/
def buildPrevMap : List FileMeta → (String → Option (List Chunk)) → String →
    Option (FileMeta × List Chunk)
  | [], _, _ => none
  | m :: rest, cm, p =>
    match cm m.path with
    | some chs =>
      if p = m.path then some (m, chs)
      else buildPrevMap rest (fun q => if q = m.path then none else cm q) p
    | none => buildPrevMap rest cm p

/-- The `prev_map` of `update_index` as a lookup function. -/
def prevMapOf (prev : IndexFile) : String → Option (FileMeta × List Chunk) :=
  buildPrevMap prev.files (initChunkMap prev.chunks)

/-- One iteration of the `update_index` loop in lib.rs: identical to the
ingest iteration except for the content-hash reuse check. -/
def updateStep (options : IngestOptions)
    (pm : String → Option (FileMeta × List Chunk)) (s : PipState)
    (f : FileInput) : PipState :=
  if s.total_bytes + f.data.length > options.max_total_bytes then
    { s with warnings := s.warnings ++
        [⟨f.path, "max_total_bytes", "Total size limit exceeded; file skipped."⟩] }
  else if f.data.length > options.max_file_bytes then
    { s with warnings := s.warnings ++
        [⟨f.path, "max_file_bytes", "File size limit exceeded; file skipped."⟩] }
  else
    let total_bytes := s.total_bytes + f.data.length
    let kind := detect_kind f.path
    let file_hash := hashB f.data
    match pm f.path with
    | some pair =>
      if pair.1.sha256 = file_hash then
        { s with
          total_bytes := total_bytes
          file_metas := s.file_metas ++ [pair.1]
          chunks := s.chunks ++ pair.2 }
      else chunkFresh hashStr utf8decode drafts_of options s total_bytes f kind file_hash
    | none => chunkFresh hashStr utf8decode drafts_of options s total_bytes f kind file_hash

/-- `update_index` from lib.rs. -/
def update_index (prev : IndexFile) (files : List FileInput)
    (options : IngestOptions) : IndexFile :=
  let pm := prevMapOf prev
  let sorted := sortByB inputLeB files
  let st := sorted.foldl (updateStep hashStr hashB utf8decode drafts_of options pm)
    ⟨0, [], [], []⟩
  mkIndexFile hashStr st st.file_metas

/-- `Vec::dedup` after a sort: drop adjacent duplicates. -/
def dedupAdj : List String → List String
  | [] => []
  | [a] => [a]
  | a :: b :: rest =>
    if a = b then dedupAdj (b :: rest) else a :: dedupAdj (b :: rest)

/-- `update_index_selective` from lib.rs: carry forward the kept paths,
process the new files with the reuse rule, then sort the metas by path
and rebuild everything. -/
def update_index_selective (prev : IndexFile) (files : List FileInput)
    (keep_paths : List String) (options : IngestOptions) : IndexFile :=
  let pm := prevMapOf prev
  let keep := dedupAdj (sortByB pathLeB keep_paths)
  let st0 : PipState := keep.foldl (fun s p =>
    match pm p with
    | some pair =>
      { s with
        file_metas := s.file_metas ++ [pair.1]
        chunks := s.chunks ++ pair.2 }
    | none => s) ⟨0, [], [], []⟩
  let sorted := sortByB inputLeB files
  let st := sorted.foldl (updateStep hashStr hashB utf8decode drafts_of options pm) st0
  mkIndexFile hashStr st (sortByB metaLeB st.file_metas)

end Pipeline

/-! ## Claim C1: chunk hashing and identity (finalize_chunks) -/

instance : Inhabited Chunk :=
  ⟨⟨"", "", "", "", ChunkKind.Text, 0, 0, 0, "", "", 0, [], none, none, none⟩⟩

theorem finalize_go_get? (hashStr : String → String) (path : String) :
    ∀ (drafts : List ChunkDraft) (index : Nat) (counts : String → Nat)
      (i : Nat) (c : Chunk),
      (finalize_go hashStr path drafts index counts).get? i = some c →
      c.content_hash = hashStr c.content ∧
      c.id = hashStr (path ++ "\n" ++ c.content_hash ++ "\n" ++
        toString (counts c.content_hash +
          ((finalize_go hashStr path drafts index counts).take i).countP
            (fun e => e.content_hash = c.content_hash))) := by
  intro drafts
  induction drafts with
  | nil => intro index counts i c hc; simp [finalize_go] at hc
  | cons d rest ih =>
    intro index counts i c hc
    match i with
    | 0 =>
      simp only [finalize_go, List.get?_cons_zero, Option.some_inj] at hc
      subst hc
      refine ⟨rfl, ?_⟩
      simp only [List.take_zero, List.countP_nil, Nat.add_zero]
    | j + 1 =>
      have hc' : (finalize_go hashStr path rest (index + 1)
          (fun h => if h = hashStr d.content then counts (hashStr d.content) + 1
            else counts h)).get? j = some c := hc
      obtain ⟨h1, h2⟩ := ih (index + 1) _ j c hc'
      refine ⟨h1, ?_⟩
      rw [h2]
      apply congrArg
      apply congrArg (fun n => path ++ "\n" ++ c.content_hash ++ "\n" ++ toString n)
      have hsplit : (finalize_go hashStr path (d :: rest) index counts).take (j + 1) =
          ((finalize_go hashStr path (d :: rest) index counts).headI) ::
          (finalize_go hashStr path rest (index + 1)
            (fun h => if h = hashStr d.content then counts (hashStr d.content) + 1
              else counts h)).take j := rfl
      rw [hsplit, List.countP_cons]
      have hhead : ((finalize_go hashStr path (d :: rest) index counts).headI).content_hash
          = hashStr d.content := rfl
      by_cases he : c.content_hash = hashStr d.content
      · rw [he, if_pos rfl]
        have hp : (decide (((finalize_go hashStr path (d :: rest) index counts).headI).content_hash
            = hashStr d.content)) = true := by rw [hhead]; simp
        rw [hp, if_pos rfl]
        omega
      · rw [if_neg he]
        have hp : (decide (((finalize_go hashStr path (d :: rest) index counts).headI).content_hash
            = c.content_hash)) = false := by
          rw [hhead]
          simp only [decide_eq_false_iff_not]
          exact fun hh => he hh.symm
        rw [hp, if_neg (by simp : ¬(false = true))]
        omega

/-- C1.  Every chunk produced by `finalize_chunks` (hence by `chunk_file`
for every file kind) carries `content_hash = sha256(content)` and
`id = sha256(path + "\n" + content_hash + "\n" + occurrence)`, where
`occurrence` is the zero-based count of earlier chunks of the same file
with the same `content_hash` (`hashStr` stands for the lowercase-hex
SHA-256 digest of `sha2`). -/
theorem chunk_hash_and_id_spec (hashStr : String → String) (path : String)
    (drafts : List ChunkDraft) (i : Nat) (c : Chunk)
    (hc : (finalize_chunks hashStr path drafts).get? i = some c) :
    c.content_hash = hashStr c.content ∧
    c.id = hashStr (path ++ "\n" ++ c.content_hash ++ "\n" ++
      toString (((finalize_chunks hashStr path drafts).take i).countP
        (fun e => e.content_hash = c.content_hash))) := by
  have h := finalize_go_get? hashStr path drafts 0 (fun _ => 0) i c hc
  simpa using h

/-- Witness for C1 at a concrete draft list with a repeated content (the
second copy gets occurrence 1). -/
theorem chunk_hash_and_id_spec_witness :
    ((finalize_chunks (fun s => "H" ++ s) "docs/a.md"
        [⟨ChunkKind.Markdown, 1, 3, "body", ["Title"], none, none⟩,
         ⟨ChunkKind.Markdown, 4, 6, "body", [], none, none⟩]).get? 1).isSome ∧
    ∀ c, (finalize_chunks (fun s => "H" ++ s) "docs/a.md"
        [⟨ChunkKind.Markdown, 1, 3, "body", ["Title"], none, none⟩,
         ⟨ChunkKind.Markdown, 4, 6, "body", [], none, none⟩]).get? 1 = some c →
      c.id = "H" ++ ("docs/a.md" ++ "\n" ++ "Hbody" ++ "\n" ++ "1") := by
  refine ⟨by decide, ?_⟩
  intro c hc
  have h := (chunk_hash_and_id_spec (fun s => "H" ++ s) "docs/a.md"
    [⟨ChunkKind.Markdown, 1, 3, "body", ["Title"], none, none⟩,
     ⟨ChunkKind.Markdown, 4, 6, "body", [], none, none⟩] 1 c hc).2
  have hch : c.content_hash = "Hbody" := by
    have h2 := hc
    simp only [finalize_chunks, finalize_go, List.get?_cons_succ, List.get?_cons_zero,
      Option.some_inj] at h2
    rw [← h2]
    rfl
  rw [h, hch]
  have hcount : ((finalize_chunks (fun s => "H" ++ s) "docs/a.md"
      [⟨ChunkKind.Markdown, 1, 3, "body", ["Title"], none, none⟩,
       ⟨ChunkKind.Markdown, 4, 6, "body", [], none, none⟩]).take 1).countP
        (fun e => e.content_hash = "Hbody") = 1 := by decide
  rw [hcount]
  rfl

/-! ## Claims C2 and C8: the BM25 search contract and snippets -/

theorem findChunk_go_mem (chunks : List Chunk) (id : String) (acc : Option Chunk)
    (c : Chunk)
    (h : chunks.foldl (fun acc c => if c.id = id then some c else acc) acc = some c) :
    (c ∈ chunks ∧ c.id = id) ∨ acc = some c := by
  induction chunks generalizing acc with
  | nil => exact Or.inr h
  | cons x xs ih =>
    simp only [List.foldl_cons] at h
    rcases ih _ h with ⟨hm, hid⟩ | hacc
    · exact Or.inl ⟨List.mem_cons_of_mem _ hm, hid⟩
    · by_cases hx : x.id = id
      · rw [if_pos hx, Option.some_inj] at hacc
        exact Or.inl ⟨hacc ▸ List.mem_cons_self _ _, hacc ▸ hx⟩
      · rw [if_neg hx] at hacc
        exact Or.inr hacc

theorem findChunk_mem (chunks : List Chunk) (id : String) (c : Chunk)
    (h : findChunk chunks id = some c) : c ∈ chunks ∧ c.id = id := by
  rcases findChunk_go_mem chunks id none c h with h' | h'
  · exact h'
  · exact absurd h' (by simp)

/-- Every result of `search_index` is built by `mkSearchResult` from some
chunk of the index. -/
theorem search_index_mem (lnQ : ℚ → ℚ) (chunks : List Chunk)
    (inverted : List (String × TermEntry)) (chunk_refs : List (String × String))
    (query : String) (filters : SearchFilters) (limit : Nat) (r : SearchResult)
    (hr : r ∈ search_index lnQ chunks inverted chunk_refs query filters limit) :
    ∃ c ∈ chunks, ∃ q : ℚ, r = mkSearchResult chunk_refs c q := by
  by_cases he : (tokenize query).isEmpty
  · simp [search_index, he] at hr
  · simp only [search_index, he, if_neg, ite_false, Bool.false_eq_true] at hr
    have h1 : r ∈ sortScoresDesc ((tokenize query).foldl _ [] |>.filterMap _) :=
      List.mem_of_mem_take hr
    have h2 := (List.perm_insertionSort
      (fun a b : SearchResult => b.score ≤ a.score) _).subset h1
    rw [List.mem_filterMap] at h2
    obtain ⟨p, _, hp⟩ := h2
    simp only [Option.map_eq_some'] at hp
    obtain ⟨chunk, hfind, hmk⟩ := hp
    obtain ⟨hm, _⟩ := findChunk_mem chunks p.1 chunk hfind
    exact ⟨chunk, hm, p.2, hmk.symm⟩

theorem sortScoresDesc_sorted (l : List SearchResult) :
    List.Sorted (fun a b : SearchResult => b.score ≤ a.score) (sortScoresDesc l) := by
  letI : IsTotal SearchResult (fun a b => b.score ≤ a.score) :=
    ⟨fun a b => le_total b.score a.score⟩
  letI : IsTrans SearchResult (fun a b => b.score ≤ a.score) :=
    ⟨fun _ _ _ h1 h2 => le_trans h2 h1⟩
  exact List.sorted_insertionSort _ l

/-- C2.  The `search_index` contract: an empty token stream returns no
results; at most `limit` results are returned; scores are non-increasing
in output order; every returned `chunk_id` is the id of a chunk of the
index. -/
theorem search_index_contract (lnQ : ℚ → ℚ) (chunks : List Chunk)
    (inverted : List (String × TermEntry)) (chunk_refs : List (String × String))
    (query : String) (filters : SearchFilters) (limit : Nat) :
    (tokenize query = [] →
      search_index lnQ chunks inverted chunk_refs query filters limit = []) ∧
    (search_index lnQ chunks inverted chunk_refs query filters limit).length ≤ limit ∧
    List.Sorted (fun a b : SearchResult => b.score ≤ a.score)
      (search_index lnQ chunks inverted chunk_refs query filters limit) ∧
    ∀ r ∈ search_index lnQ chunks inverted chunk_refs query filters limit,
      ∃ c ∈ chunks, c.id = r.chunk_id := by
  refine ⟨?_, ?_, ?_, ?_⟩
  · intro h
    simp [search_index, h]
  · by_cases he : (tokenize query).isEmpty
    · simp [search_index, he]
    · simp only [search_index, he, if_neg, ite_false, Bool.false_eq_true]
      exact List.length_take_le _ _
  · by_cases he : (tokenize query).isEmpty
    · simp [search_index, he]
    · simp only [search_index, he, if_neg, ite_false, Bool.false_eq_true]
      exact (sortScoresDesc_sorted _).sublist (List.take_sublist _ _)
  · intro r hr
    obtain ⟨c, hm, q, rfl⟩ := search_index_mem lnQ chunks inverted chunk_refs
      query filters limit r hr
    exact ⟨c, hm, rfl⟩

/-- Witness for C2 at the empty query. -/
theorem search_index_contract_witness :
    tokenize "" = [] ∧
    search_index (fun _ => 0) [] [] [] "" ⟨none, none, none, none, none⟩ 5 = [] :=
  ⟨rfl, (search_index_contract (fun _ => 0) [] [] [] "" ⟨none, none, none, none, none⟩ 5).1 rfl⟩

set_option maxRecDepth 8000 in
/-- C8 as stated is false: the truncation test of `snippet` is on the
UTF-8 byte length, not the character count, and the appended marker is
three ASCII dots rather than the single ellipsis character.  The witness
string of 101 two-byte characters has 101 ≤ 200 characters, yet its
snippet is not the content (it is the content plus `"..."`); the 201-dash
ASCII string shows the marker is not `"…"`. -/
theorem snippet_spec_counterexample :
    ((String.mk (List.replicate 101 'é')).data.length ≤ 200) ∧
    snippet (String.mk (List.replicate 101 'é')) 200 ≠ String.mk (List.replicate 101 'é') ∧
    snippet (String.mk (List.replicate 101 'é')) 200 =
      String.mk (List.replicate 101 'é') ++ "..." ∧
    snippet (String.mk (List.replicate 201 'a')) 200 ≠
      String.mk (List.replicate 200 'a') ++ "…" := by
  refine ⟨by decide, by decide, by decide, by decide⟩

/-- C8 amended.  The snippet placed in a `SearchResult` equals the chunk
content when the content has at most 200 UTF-8 bytes, and otherwise the
first 200 characters of the content followed by `"..."`; whether
truncation happens is decided by byte count. -/
theorem search_snippet_spec (lnQ : ℚ → ℚ) (chunks : List Chunk)
    (inverted : List (String × TermEntry)) (chunk_refs : List (String × String))
    (query : String) (filters : SearchFilters) (limit : Nat) :
    ∀ r ∈ search_index lnQ chunks inverted chunk_refs query filters limit,
      ∃ c ∈ chunks, r.chunk_id = c.id ∧
        r.snippet = (if utf8Len c.content ≤ 200 then c.content
          else (c.content.data.take 200).asString ++ "...") := by
  intro r hr
  obtain ⟨c, hm, q, rfl⟩ := search_index_mem lnQ chunks inverted chunk_refs
    query filters limit r hr
  refine ⟨c, hm, rfl, ?_⟩
  rfl

/-- Witness for the amended C8 on a one-chunk index: the single search
result carries the untruncated 11-byte content as its snippet. -/
theorem search_snippet_spec_witness :
    ∃ c ∈ [(⟨"id1", "id1", "s", "p.md", ChunkKind.Markdown, 0, 1, 1, "hello world",
        "h", 3, [], none, none, none⟩ : Chunk)],
      (⟨"id1", "id1", 20/17, "p.md", 1, 1, "hello world", []⟩ :
        SearchResult).chunk_id = c.id ∧
      (⟨"id1", "id1", 20/17, "p.md", 1, 1, "hello world", []⟩ :
        SearchResult).snippet =
        (if utf8Len c.content ≤ 200 then c.content
         else (c.content.data.take 200).asString ++ "...") :=
  search_snippet_spec (fun _ => 1)
    [⟨"id1", "id1", "s", "p.md", ChunkKind.Markdown, 0, 1, 1, "hello world", "h",
      3, [], none, none, none⟩]
    [("hello", ⟨1, [⟨"id1", 1, 2⟩]⟩)] [] "hello" ⟨none, none, none, none, none⟩ 5
    ⟨"id1", "id1", 20/17, "p.md", 1, 1, "hello world", []⟩
    (by
      have hs : search_index (fun _ => 1)
          [⟨"id1", "id1", "s", "p.md", ChunkKind.Markdown, 0, 1, 1, "hello world",
            "h", 3, [], none, none, none⟩]
          [("hello", ⟨1, [⟨"id1", 1, 2⟩]⟩)] [] "hello"
          ⟨none, none, none, none, none⟩ 5 =
          [⟨"id1", "id1", 20/17, "p.md", 1, 1, "hello world", []⟩] := by
        have ht : tokenize "hello" = ["hello"] := by decide
        simp only [search_index, ht]
        norm_num [findChunk, passes_filters, addScore, lookupRef, mkSearchResult,
          sortScoresDesc, List.insertionSort, List.orderedInsert, snippet, utf8Bytes,
          utf8EncodeChar, heading_matches, strStarts]
        intro h
        exact absurd h (by decide)
      rw [hs]
      exact List.mem_singleton.mpr rfl)

/-! ## Claim C10: get-chunk lookup precedence -/

/-- C10.  The `llmx_get_chunk_handler` lookup resolves its identifier
with a fixed precedence: an exact full-id match (the first chunk in index
order with that id) always wins; otherwise a chunk whose assigned ref
equals the argument is returned; otherwise the first chunk in index order
whose id starts with the argument; otherwise nothing. -/
theorem get_chunk_precedence (chunks : List Chunk)
    (chunk_refs : List (String × String)) (q : String) :
    (∀ c, chunks.find? (fun c => c.id = q) = some c →
      llmx_get_chunk chunks chunk_refs q = some (chunkOut c)) ∧
    (chunks.find? (fun c => c.id = q) = none →
      ∀ p, chunk_refs.find? (fun p : String × String => p.2 = q) = some p →
      ∀ c, chunks.find? (fun c => c.id = p.1) = some c →
      llmx_get_chunk chunks chunk_refs q = some (chunkOut c)) ∧
    (chunks.find? (fun c => c.id = q) = none →
      (chunk_refs.find? (fun p : String × String => p.2 = q) = none ∨
        ∃ p, chunk_refs.find? (fun p : String × String => p.2 = q) = some p ∧
          chunks.find? (fun c => c.id = p.1) = none) →
      llmx_get_chunk chunks chunk_refs q =
        (chunks.find? (fun c => strStarts c.id q)).map chunkOut) := by
  refine ⟨?_, ?_, ?_⟩
  · intro c hc
    simp [llmx_get_chunk, hc]
  · intro h1 p h2 c h3
    simp [llmx_get_chunk, h1, h2, h3]
  · intro h1 h2
    rcases h2 with h2 | ⟨p, h2, h3⟩
    · simp [llmx_get_chunk, h1, h2]
    · simp [llmx_get_chunk, h1, h2, h3]

/-- Witness for C10: an exact id match wins even when a ref and a prefix
also match. -/
theorem get_chunk_precedence_witness :
    ([⟨"abc", "a", "s", "p", ChunkKind.Text, 0, 1, 1, "x", "h", 1, [], none, none, none⟩,
      ⟨"abcd", "a", "s", "p", ChunkKind.Text, 1, 2, 2, "y", "h2", 1, [], none, none, none⟩] :
        List Chunk).find? (fun c => c.id = "abc") =
      some ⟨"abc", "a", "s", "p", ChunkKind.Text, 0, 1, 1, "x", "h", 1, [], none, none, none⟩ ∧
    llmx_get_chunk
      [⟨"abc", "a", "s", "p", ChunkKind.Text, 0, 1, 1, "x", "h", 1, [], none, none, none⟩,
       ⟨"abcd", "a", "s", "p", ChunkKind.Text, 1, 2, 2, "y", "h2", 1, [], none, none, none⟩]
      [("abcd", "abc")] "abc" =
      some (chunkOut ⟨"abc", "a", "s", "p", ChunkKind.Text, 0, 1, 1, "x", "h", 1, [], none, none, none⟩) := by
  refine ⟨by decide, ?_⟩
  exact (get_chunk_precedence _ [("abcd", "abc")] "abc").1 _ (by decide)

/-! ## Claim C9: chunks sorted by (path, start_line) -/

theorem chunkLeB_iff (a b : Chunk) :
    chunkLeB a b = true ↔
      strLtB a.path b.path = true ∨ (a.path = b.path ∧ a.start_line ≤ b.start_line) := by
  simp only [chunkLeB, keyLe, Bool.not_eq_true']
  constructor
  · intro h
    by_cases hlt : ckeyLtB (ckey a) (ckey b) = true
    · simp only [ckeyLtB, pairLtB, ckey, Bool.or_eq_true, Bool.and_eq_true,
        decide_eq_true_eq, natLtB] at hlt
      rcases hlt with hlt | ⟨he, hlt⟩
      · exact Or.inl hlt
      · exact Or.inr ⟨he, Nat.le_of_lt hlt⟩
    · have := ckeyLtB_spec.conn _ _ (by simpa using hlt) h
      have hpath : a.path = b.path := congrArg Prod.fst this
      have hline : a.start_line = b.start_line := congrArg Prod.snd this
      exact Or.inr ⟨hpath, Nat.le_of_eq hline⟩
  · intro h
    rcases h with h | ⟨he, hle⟩
    · by_cases hba : ckeyLtB (ckey b) (ckey a) = true
      · have := ckeyLtB_spec.asymm _ _ hba
        simp only [ckeyLtB, pairLtB, ckey, Bool.or_eq_false_iff] at this
        rw [this.1] at h
        exact absurd h (by simp)
      · simpa using hba
    · simp only [ckeyLtB, pairLtB, ckey, Bool.or_eq_false_iff, Bool.and_eq_false_iff]
      constructor
      · rw [he]
        by_cases hbb : lexLtB b.path.data b.path.data = true
        · rw [lexLtB_irrefl] at hbb; exact absurd hbb (by simp)
        · simpa [strLtB] using hbb
      · right
        simp only [natLtB, decide_eq_false_iff_not, Nat.not_lt]
        exact hle

/-- C9.  In every `IndexFile` returned by `ingest_files`, `update_index`
or `update_index_selective`, the chunks are sorted non-decreasingly by
`(path, start_line)` (paths bytewise, which is the scalar-value order
`strLtB` computes). -/
theorem chunks_sorted_spec (hashStr : String → String) (hashB : List Nat → String)
    (utf8decode : List Nat → Option String)
    (drafts_of : String → String → ChunkKind → IngestOptions → List ChunkDraft)
    (files files2 files3 : List FileInput) (options : IngestOptions)
    (prev prev2 : IndexFile) (keep_paths : List String) :
    List.Sorted
      (fun a b : Chunk => strLtB a.path b.path = true ∨
        (a.path = b.path ∧ a.start_line ≤ b.start_line))
      (ingest_files hashStr hashB utf8decode drafts_of files options).chunks ∧
    List.Sorted
      (fun a b : Chunk => strLtB a.path b.path = true ∨
        (a.path = b.path ∧ a.start_line ≤ b.start_line))
      (update_index hashStr hashB utf8decode drafts_of prev files2 options).chunks ∧
    List.Sorted
      (fun a b : Chunk => strLtB a.path b.path = true ∨
        (a.path = b.path ∧ a.start_line ≤ b.start_line))
      (update_index_selective hashStr hashB utf8decode drafts_of prev2 files3
        keep_paths options).chunks := by
  have key : ∀ st : PipState, ∀ metas : List FileMeta,
      List.Sorted
        (fun a b : Chunk => strLtB a.path b.path = true ∨
          (a.path = b.path ∧ a.start_line ≤ b.start_line))
        (mkIndexFile hashStr st metas).chunks := by
    intro st metas
    have hs := keyLe_sorted ckeyLtB ckey ckeyLtB_spec st.chunks
    exact hs.imp fun h => (chunkLeB_iff _ _).mp h
  exact ⟨key _ _, key _ _, key _ _⟩

/-! ## Claim C7: the max_file_bytes boundary never aborts a build -/

theorem ingestStep_skips_oversized (hashStr : String → String) (hashB : List Nat → String)
    (utf8decode : List Nat → Option String)
    (drafts_of : String → String → ChunkKind → IngestOptions → List ChunkDraft)
    (options : IngestOptions) (s : PipState) (f : FileInput)
    (h1 : s.total_bytes + f.data.length ≤ options.max_total_bytes)
    (h2 : f.data.length > options.max_file_bytes) :
    ingestStep hashStr hashB utf8decode drafts_of options s f =
      { s with warnings := s.warnings ++
          [⟨f.path, "max_file_bytes", "File size limit exceeded; file skipped."⟩] } := by
  simp only [ingestStep,
    if_neg (by omega : ¬ s.total_bytes + f.data.length > options.max_total_bytes),
    if_pos (by omega : f.data.length > options.max_file_bytes)]

theorem ingestStep_includes_at_limit (hashStr : String → String) (hashB : List Nat → String)
    (utf8decode : List Nat → Option String)
    (drafts_of : String → String → ChunkKind → IngestOptions → List ChunkDraft)
    (options : IngestOptions) (s : PipState) (f : FileInput)
    (h1 : s.total_bytes + f.data.length ≤ options.max_total_bytes)
    (h2 : f.data.length = options.max_file_bytes)
    (h3 : detect_kind f.path = ChunkKind.Image ∨ ∃ t, utf8decode f.data = some t) :
    ∃ m : FileMeta,
      (ingestStep hashStr hashB utf8decode drafts_of options s f).file_metas =
        s.file_metas ++ [m] ∧
      m.path = f.path ∧ m.sha256 = hashB f.data ∧ m.bytes = f.data.length := by
  simp only [ingestStep,
    if_neg (by omega : ¬ s.total_bytes + f.data.length > options.max_total_bytes),
    if_neg (by omega : ¬ f.data.length > options.max_file_bytes)]
  by_cases him : detect_kind f.path = ChunkKind.Image
  · simp only [chunkFresh, him, if_pos rfl, afterChunks]
    exact ⟨_, rfl, rfl, rfl, rfl⟩
  · rcases h3 with him' | ⟨t, ht⟩
    · exact absurd him' him
    · simp only [chunkFresh, him, if_neg, ite_false, ht, afterChunks]
      exact ⟨_, rfl, rfl, rfl, rfl⟩

/-- C7.  A file whose byte length equals `max_file_bytes` (that fits the
running total budget and is decodable or an image) is included; a file
whose byte length exceeds `max_file_bytes` (within the total budget) is
skipped with exactly one `max_file_bytes` warning, leaving the metas and
chunks untouched; and a build over just such a bad file still returns a
complete `IndexFile` rather than aborting. -/
theorem ingest_max_file_boundary (hashStr : String → String) (hashB : List Nat → String)
    (utf8decode : List Nat → Option String)
    (drafts_of : String → String → ChunkKind → IngestOptions → List ChunkDraft)
    (options : IngestOptions) :
    (∀ (s : PipState) (f : FileInput),
      s.total_bytes + f.data.length ≤ options.max_total_bytes →
      f.data.length = options.max_file_bytes →
      (detect_kind f.path = ChunkKind.Image ∨ ∃ t, utf8decode f.data = some t) →
      ∃ m : FileMeta,
        (ingestStep hashStr hashB utf8decode drafts_of options s f).file_metas =
          s.file_metas ++ [m] ∧
        m.path = f.path ∧ m.sha256 = hashB f.data ∧ m.bytes = f.data.length) ∧
    (∀ (s : PipState) (f : FileInput),
      s.total_bytes + f.data.length ≤ options.max_total_bytes →
      f.data.length > options.max_file_bytes →
      ingestStep hashStr hashB utf8decode drafts_of options s f =
        { s with warnings := s.warnings ++
            [⟨f.path, "max_file_bytes", "File size limit exceeded; file skipped."⟩] }) ∧
    (∀ f : FileInput,
      f.data.length > options.max_file_bytes →
      f.data.length ≤ options.max_total_bytes →
      ingest_files hashStr hashB utf8decode drafts_of [f] options =
        { version := 1
          index_id := hashStr ""
          files := []
          chunks := []
          chunk_refs := []
          inverted_index := []
          stats := ⟨0, 0, 0, 0⟩
          warnings := [⟨f.path, "max_file_bytes", "File size limit exceeded; file skipped."⟩]
          embeddings := none
          embedding_model := none }) := by
  refine ⟨?_, ?_, ?_⟩
  · intro s f h1 h2 h3
    exact ingestStep_includes_at_limit hashStr hashB utf8decode drafts_of options s f h1 h2 h3
  · intro s f h1 h2
    exact ingestStep_skips_oversized hashStr hashB utf8decode drafts_of options s f h1 h2
  · intro f h1 h2
    have hsort : sortByB inputLeB [f] = [f] := rfl
    have hstep := ingestStep_skips_oversized hashStr hashB utf8decode drafts_of options
      ⟨0, [], [], []⟩ f (by simpa using h2) h1
    simp only [ingest_files, hsort, List.foldl_cons, List.foldl_nil, hstep]
    rfl

set_option maxRecDepth 16000 in
/-- Witness for C7: a 512-byte file at the limit is included; a 513-byte
file is skipped with one warning; the singleton build of the oversized
file yields a complete empty index. -/
theorem ingest_max_file_boundary_witness :
    ((⟨0, [], [], []⟩ : PipState).total_bytes +
      (List.replicate 512 (0 : Nat)).length ≤ 1024) ∧
    ((List.replicate 513 (0 : Nat)).length > 512) ∧
    (∃ m : FileMeta,
      (ingestStep (fun _ => "h") (fun _ => "hb") (fun _ => some "x") (fun _ _ _ _ => [])
          ⟨4000, 8000, 512, 1024, 2000⟩ ⟨0, [], [], []⟩
          ⟨"a.txt", List.replicate 512 0, none, none⟩).file_metas =
        ([] : List FileMeta) ++ [m] ∧
      m.path = "a.txt" ∧ m.sha256 = "hb" ∧ m.bytes = (List.replicate 512 (0 : Nat)).length) ∧
    (ingest_files (fun _ => "h") (fun _ => "hb") (fun _ => some "x") (fun _ _ _ _ => [])
        [⟨"a.bin", List.replicate 513 0, none, none⟩] ⟨4000, 8000, 512, 1024, 2000⟩).files = [] := by
  refine ⟨by decide, by decide, ?_, ?_⟩
  · exact (ingest_max_file_boundary (fun _ => "h") (fun _ => "hb") (fun _ => some "x")
      (fun _ _ _ _ => []) ⟨4000, 8000, 512, 1024, 2000⟩).1 ⟨0, [], [], []⟩
      ⟨"a.txt", List.replicate 512 0, none, none⟩ (by decide) (by decide)
      (Or.inr ⟨"x", rfl⟩)
  · rw [(ingest_max_file_boundary (fun _ => "h") (fun _ => "hb") (fun _ => some "x")
      (fun _ _ _ _ => []) ⟨4000, 8000, 512, 1024, 2000⟩).2.2
      ⟨"a.bin", List.replicate 513 0, none, none⟩ (by decide) (by decide)]

/-! ## Claim C6: reciprocal rank fusion -/

/-- Lookup in the insertion-ordered score map, defaulting to 0. -/
def lookupScore (m : List (String × ℚ)) (k : String) : ℚ :=
  match m with
  | [] => 0
  | (k', v) :: rest => if k' = k then v else lookupScore rest k

theorem addScore_lookup (m : List (String × ℚ)) (k : String) (v : ℚ) (k' : String) :
    lookupScore (addScore m k v) k' = lookupScore m k' + if k' = k then v else 0 := by
  induction m with
  | nil =>
    simp only [addScore, lookupScore]
    by_cases h1 : k = k'
    · rw [if_pos h1, if_pos h1.symm]; ring
    · rw [if_neg h1, if_neg (fun hh => h1 hh.symm)]; ring
  | cons a rest ih =>
    obtain ⟨ak, av⟩ := a
    simp only [addScore]
    by_cases hak : ak = k
    · rw [if_pos hak]
      simp only [lookupScore]
      by_cases h2 : ak = k'
      · rw [if_pos h2, if_pos h2, if_pos (h2.symm.trans hak)]
      · rw [if_neg h2, if_neg h2, if_neg (fun hh : k' = k => h2 (hak.trans hh.symm))]
        ring
    · rw [if_neg hak]
      simp only [lookupScore]
      by_cases h2 : ak = k'
      · rw [if_pos h2, if_pos h2, if_neg (fun hh : k' = k => hak (h2.trans hh))]
        ring
      · rw [if_neg h2, if_neg h2, ih]

theorem addScore_fst_mem (m : List (String × ℚ)) (k : String) (v : ℚ) (x : String) :
    x ∈ (addScore m k v).map Prod.fst ↔ x ∈ m.map Prod.fst ∨ x = k := by
  induction m with
  | nil => simp [addScore]
  | cons a rest ih =>
    obtain ⟨ak, av⟩ := a
    simp only [addScore]
    by_cases hak : ak = k
    · rw [if_pos hak]
      simp only [List.map_cons, List.mem_cons]
      constructor
      · rintro (h | h)
        · exact Or.inl (Or.inl h)
        · exact Or.inl (Or.inr h)
      · rintro ((h | h) | h)
        · exact Or.inl h
        · exact Or.inr h
        · exact Or.inl (h.trans hak.symm)
    · rw [if_neg hak]
      simp only [List.map_cons, List.mem_cons, ih]
      tauto

theorem addScore_nodup (m : List (String × ℚ)) (k : String) (v : ℚ)
    (h : (m.map Prod.fst).Nodup) : ((addScore m k v).map Prod.fst).Nodup := by
  induction m with
  | nil => simp [addScore]
  | cons a rest ih =>
    obtain ⟨ak, av⟩ := a
    simp only [List.map_cons, List.nodup_cons] at h
    simp only [addScore]
    by_cases hak : ak = k
    · rw [if_pos hak]
      simp only [List.map_cons, List.nodup_cons]
      exact h
    · rw [if_neg hak]
      simp only [List.map_cons, List.nodup_cons]
      refine ⟨?_, ih h.2⟩
      rw [addScore_fst_mem]
      rintro (hh | hh)
      · exact h.1 hh
      · exact hak hh

theorem lookupScore_of_mem (m : List (String × ℚ)) (p : String × ℚ)
    (hnd : (m.map Prod.fst).Nodup) (hp : p ∈ m) : lookupScore m p.1 = p.2 := by
  induction m with
  | nil => simp at hp
  | cons a rest ih =>
    obtain ⟨ak, av⟩ := a
    simp only [List.map_cons, List.nodup_cons] at hnd
    rcases List.mem_cons.mp hp with rfl | hp'
    · simp [lookupScore]
    · have hne : ak ≠ p.1 := by
        intro hh
        exact hnd.1 (hh ▸ (List.mem_map.mpr ⟨p, hp', rfl⟩))
      simp only [lookupScore, if_neg hne]
      exact ih hnd.2 hp'

theorem rrf_inner_fold_lookup (w : RankedResult → ℚ) (l : List RankedResult) :
    ∀ (m : List (String × ℚ)) (k : String),
      lookupScore (l.foldl (fun m r => addScore m r.id (w r)) m) k =
        lookupScore m k + ((l.filter fun r => r.id = k).map w).sum := by
  induction l with
  | nil => intro m k; simp
  | cons r rest ih =>
    intro m k
    simp only [List.foldl_cons, ih, addScore_lookup, List.filter_cons]
    by_cases h : r.id = k
    · rw [if_pos h.symm, if_pos (show decide (r.id = k) = true by simp [h])]
      simp only [List.map_cons, List.sum_cons]
      ring
    · rw [if_neg (fun hh : k = r.id => h hh.symm),
        if_neg (show ¬ decide (r.id = k) = true by simp [h])]
      ring

theorem rrf_inner_fold_nodup (w : RankedResult → ℚ) (l : List RankedResult)
    (m : List (String × ℚ)) (h : (m.map Prod.fst).Nodup) :
    ((l.foldl (fun m r => addScore m r.id (w r)) m).map Prod.fst).Nodup := by
  induction l generalizing m with
  | nil => exact h
  | cons r rest ih => exact ih _ (addScore_nodup _ _ _ h)

/-- The accumulated RRF score the specification describes: for every
occurrence of `d` at rank `r` in any list, add `1 / (k + r + 1)`. -/
def rrfSpecScore (result_lists : List (List RankedResult)) (config : RrfConfig)
    (d : String) : ℚ :=
  (result_lists.map fun l =>
    ((l.filter fun r => r.id = d).map fun r =>
      (1 : ℚ) / ((config.k + r.rank + 1 : Nat) : ℚ)).sum).sum

theorem rrf_outer_fold_lookup (config : RrfConfig) (lists : List (List RankedResult)) :
    ∀ (m : List (String × ℚ)) (k : String),
      lookupScore (lists.foldl (fun m results =>
        results.foldl (fun m r =>
          addScore m r.id ((1 : ℚ) / ((config.k + r.rank + 1 : Nat) : ℚ))) m) m) k =
      lookupScore m k + rrfSpecScore lists config k := by
  induction lists with
  | nil => intro m k; simp [rrfSpecScore]
  | cons l rest ih =>
    intro m k
    simp only [List.foldl_cons, ih, rrf_inner_fold_lookup, rrfSpecScore, List.map_cons,
      List.sum_cons]
    ring

theorem rrf_outer_fold_nodup (config : RrfConfig) (lists : List (List RankedResult))
    (m : List (String × ℚ)) (h : (m.map Prod.fst).Nodup) :
    ((lists.foldl (fun m results =>
      results.foldl (fun m r =>
        addScore m r.id ((1 : ℚ) / ((config.k + r.rank + 1 : Nat) : ℚ))) m) m).map
        Prod.fst).Nodup := by
  induction lists generalizing m with
  | nil => exact h
  | cons l rest ih => exact ih _ (rrf_inner_fold_nodup _ l m h)

/-- The concrete S5 fusion example evaluated: the lexical ranking
`[X, Y, Z]` against the vector ranking `[Y, X, W]`. -/
theorem rrf_example_eval :
    rrf_fusion [[⟨"X", 0⟩, ⟨"Y", 1⟩, ⟨"Z", 2⟩], [⟨"Y", 0⟩, ⟨"X", 1⟩, ⟨"W", 2⟩]]
        rrfDefault 4 =
      [("X", 1/61 + 1/62), ("Y", 1/61 + 1/62), ("Z", 1/63), ("W", 1/63)] := by
  norm_num [rrf_fusion, rrfDefault, addScore, List.insertionSort, List.orderedInsert]

/-- C6 as stated is false on the S5 example: `Z` (rank 2, so
`1/(60 + 2 + 1)`) scores `1/63`, not the claimed `1/62`; moreover `X` and
`Y` score exactly the same `1/61 + 1/62`, so the code does not produce a
`Y`-strictly-first order (in the embedding the tie falls to `X`). -/
theorem rrf_fusion_counterexample :
    ((rrf_fusion [[⟨"X", 0⟩, ⟨"Y", 1⟩, ⟨"Z", 2⟩], [⟨"Y", 0⟩, ⟨"X", 1⟩, ⟨"W", 2⟩]]
        rrfDefault 4).filter (fun p => p.1 = "Z")).map Prod.snd = [1/63] ∧
    ((1 : ℚ)/63 ≠ 1/62) ∧
    (rrf_fusion [[⟨"X", 0⟩, ⟨"Y", 1⟩, ⟨"Z", 2⟩], [⟨"Y", 0⟩, ⟨"X", 1⟩, ⟨"W", 2⟩]]
        rrfDefault 4).head?.map Prod.fst = some "X" := by
  refine ⟨?_, by norm_num, ?_⟩
  · rw [rrf_example_eval]
    rfl
  · rw [rrf_example_eval]
    rfl

/-- C6 amended.  `rrf_fusion` assigns each id the sum over its
occurrences at rank `r` of `1/(k_const + r + 1)` (with `k_const = 60` by
default), sorts by score descending and truncates to `limit`; on the S5
example at limit 4 the output is, up to the order of the tied pair, `Y`
and `X` with the equal score `1/61 + 1/62` followed by `Z` and `W` tied
on `1/63`. -/
theorem rrf_fusion_spec :
    (∀ (result_lists : List (List RankedResult)) (config : RrfConfig) (limit : Nat),
      (rrf_fusion result_lists config limit).length ≤ limit ∧
      List.Sorted (fun a b : String × ℚ => b.2 ≤ a.2)
        (rrf_fusion result_lists config limit) ∧
      (rrf_fusion result_lists config limit).Forall
        (fun p => p.2 = rrfSpecScore result_lists config p.1)) ∧
    (rrf_fusion [[⟨"X", 0⟩, ⟨"Y", 1⟩, ⟨"Z", 2⟩], [⟨"Y", 0⟩, ⟨"X", 1⟩, ⟨"W", 2⟩]]
        rrfDefault 4).Perm
      [("Y", 1/61 + 1/62), ("X", 1/61 + 1/62), ("Z", (1 : ℚ)/63), ("W", 1/63)] := by
  constructor
  · intro result_lists config limit
    refine ⟨List.length_take_le _ _, ?_, ?_⟩
    · letI : IsTotal (String × ℚ) (fun a b => b.2 ≤ a.2) :=
        ⟨fun a b => le_total b.2 a.2⟩
      letI : IsTrans (String × ℚ) (fun a b => b.2 ≤ a.2) :=
        ⟨fun _ _ _ h1 h2 => le_trans h2 h1⟩
      exact (List.sorted_insertionSort _ _).sublist (List.take_sublist _ _)
    · rw [List.forall_iff_forall_mem]
      intro p hp
      have hp2 := List.mem_of_mem_take hp
      have hp3 := (List.perm_insertionSort
        (fun a b : String × ℚ => b.2 ≤ a.2) _).subset hp2
      have hnd := rrf_outer_fold_nodup config result_lists [] (by simp)
      have := lookupScore_of_mem _ p hnd hp3
      rw [← this, rrf_outer_fold_lookup]
      simp [lookupScore]
  · rw [rrf_example_eval]
    exact List.Perm.swap _ _ _

/-! ## Claim C3: the token-budget phase of the search handler -/

/-- The budget rule exactly as the specification phrases it (no stopping
at `limit`): walk the ranked results in order, include a result iff the
tokens used so far plus its chunk estimate fit `maxTokens`, and otherwise
record its id as truncated. -/
def greedyBudget (chunks : List Chunk) (maxTokens : Nat) :
    List SearchResult → Nat → List SearchResultOutput × List String
  | [], _ => ([], [])
  | r :: rest, used =>
    match chunks.find? (fun c => c.id = r.chunk_id) with
    | none => ([], [])
    | some chunk =>
      if used + chunk.token_estimate ≤ maxTokens then
        let p := greedyBudget chunks maxTokens rest (used + chunk.token_estimate)
        (budgetOut r chunk :: p.1, p.2)
      else
        let p := greedyBudget chunks maxTokens rest used
        (p.1, r.chunk_id :: p.2)

/-- The token estimate of a returned result, recovered through its chunk. -/
def outEstimate (chunks : List Chunk) (o : SearchResultOutput) : Nat :=
  ((chunks.find? fun c => c.id = o.chunk_id).map Chunk.token_estimate).getD 0

theorem budgetGo_char (chunks : List Chunk) (limit maxT : Nat) :
    ∀ (rs : List SearchResult) (res : List SearchResultOutput) (used : Nat)
      (trunc : List String) (resF : List SearchResultOutput) (truncF : List String),
      budgetGo chunks limit maxT rs res used trunc = some (resF, truncF) →
      ∃ n ≤ rs.length,
        resF = res ++ (greedyBudget chunks maxT (rs.take n) used).1 ∧
        truncF = trunc ++ (greedyBudget chunks maxT (rs.take n) used).2 ∧
        (n = rs.length ∨ (resF.length ≥ limit ∧ ∀ m, 0 < m → m < n →
          (res ++ (greedyBudget chunks maxT (rs.take m) used).1).length < limit)) := by
  intro rs
  induction rs with
  | nil =>
    intro res used trunc resF truncF h
    simp only [budgetGo, Option.some_inj, Prod.mk.injEq] at h
    exact ⟨0, Nat.le_refl 0, by simp [greedyBudget, h.1], by simp [greedyBudget, h.2],
      Or.inl rfl⟩
  | cons r rest ih =>
    intro res used trunc resF truncF h
    cases hfind : chunks.find? (fun c => c.id = r.chunk_id) with
    | none =>
      simp only [budgetGo, hfind] at h
      exact absurd h (by simp)
    | some chunk =>
      simp only [budgetGo, hfind] at h
      by_cases hfits : used + chunk.token_estimate ≤ maxT
      · rw [if_pos hfits] at h
        by_cases hstop : (res ++ [budgetOut r chunk]).length ≥ limit
        · rw [if_pos hstop] at h
          simp only [Option.some_inj, Prod.mk.injEq] at h
          refine ⟨1, by simp, ?_, ?_, Or.inr ⟨?_, ?_⟩⟩
          · rw [← h.1]
            simp [greedyBudget, hfind, hfits]
          · rw [← h.2]
            simp [greedyBudget, hfind, hfits]
          · rw [← h.1]; exact hstop
          · intro m hm1 hm2; omega
        · rw [if_neg hstop] at h
          obtain ⟨n, hn, h1, h2, h3⟩ := ih (res ++ [budgetOut r chunk])
            (used + chunk.token_estimate) trunc resF truncF h
          refine ⟨n + 1, by simpa using hn, ?_, ?_, ?_⟩
          · simp only [List.take_succ_cons, List.take_zero, greedyBudget, hfind, hfits, if_true, ite_true]
            simpa using h1
          · simp only [List.take_succ_cons, List.take_zero, greedyBudget, hfind, hfits, if_true, ite_true]
            exact h2
          · rcases h3 with h3 | ⟨h3a, h3b⟩
            · exact Or.inl (by simp [h3])
            · refine Or.inr ⟨h3a, ?_⟩
              intro m hm1 hm2
              match m with
              | 1 =>
                simp only [List.take_succ_cons, List.take_zero, greedyBudget, hfind, hfits, if_true, ite_true]
                simpa using Nat.lt_of_not_le (fun hh => hstop (by simpa using hh))
              | m' + 2 =>
                have := h3b (m' + 1) (by omega) (by omega)
                simp only [List.take_succ_cons, List.take_zero, greedyBudget, hfind, hfits, if_true, ite_true]
                simpa using this
      · rw [if_neg hfits] at h
        by_cases hstop : res.length ≥ limit
        · rw [if_pos hstop] at h
          simp only [Option.some_inj, Prod.mk.injEq] at h
          refine ⟨1, by simp, ?_, ?_, Or.inr ⟨?_, ?_⟩⟩
          · rw [← h.1]
            simp [greedyBudget, hfind, hfits]
          · rw [← h.2]
            simp [greedyBudget, hfind, hfits]
          · rw [← h.1]; exact hstop
          · intro m hm1 hm2; omega
        · rw [if_neg hstop] at h
          obtain ⟨n, hn, h1, h2, h3⟩ := ih res used (trunc ++ [r.chunk_id]) resF truncF h
          refine ⟨n + 1, by simpa using hn, ?_, ?_, ?_⟩
          · simp only [List.take_succ_cons, List.take_zero, greedyBudget, hfind, hfits, if_false, ite_false]
            exact h1
          · simp only [List.take_succ_cons, List.take_zero, greedyBudget, hfind, hfits, if_false, ite_false]
            simpa using h2
          · rcases h3 with h3 | ⟨h3a, h3b⟩
            · exact Or.inl (by simp [h3])
            · refine Or.inr ⟨h3a, ?_⟩
              intro m hm1 hm2
              match m with
              | 1 =>
                simp only [List.take_succ_cons, List.take_zero, greedyBudget, hfind, hfits, if_false, ite_false]
                simpa using Nat.lt_of_not_le hstop
              | m' + 2 =>
                have := h3b (m' + 1) (by omega) (by omega)
                simp only [List.take_succ_cons, List.take_zero, greedyBudget, hfind, hfits, if_false, ite_false]
                simpa using this

theorem budgetGo_sum (chunks : List Chunk) (limit maxT : Nat) :
    ∀ (rs : List SearchResult) (res : List SearchResultOutput) (used : Nat)
      (trunc : List String) (out : List SearchResultOutput × List String),
      budgetGo chunks limit maxT rs res used trunc = some out →
      (res.map (outEstimate chunks)).sum = used →
      used ≤ maxT →
      ((out.1).map (outEstimate chunks)).sum ≤ maxT := by
  intro rs
  induction rs with
  | nil =>
    intro res used trunc out h hsum hle
    simp only [budgetGo, Option.some_inj] at h
    rw [← h]
    simpa [hsum] using hle
  | cons r rest ih =>
    intro res used trunc out h hsum hle
    cases hfind : chunks.find? (fun c => c.id = r.chunk_id) with
    | none =>
      simp only [budgetGo, hfind] at h
      exact absurd h (by simp)
    | some chunk =>
      simp only [budgetGo, hfind] at h
      have hest : outEstimate chunks (budgetOut r chunk) = chunk.token_estimate := by
        simp [outEstimate, budgetOut, hfind]
      by_cases hfits : used + chunk.token_estimate ≤ maxT
      · rw [if_pos hfits] at h
        have hsum' : ((res ++ [budgetOut r chunk]).map (outEstimate chunks)).sum =
            used + chunk.token_estimate := by
          simp [hsum, hest]
        by_cases hstop : (res ++ [budgetOut r chunk]).length ≥ limit
        · rw [if_pos hstop, Option.some_inj] at h
          rw [← h]
          show ((res ++ [budgetOut r chunk]).map (outEstimate chunks)).sum ≤ maxT
          rw [hsum']
          exact hfits
        · rw [if_neg hstop] at h
          exact ih _ _ _ _ h hsum' hfits
      · rw [if_neg hfits] at h
        by_cases hstop : res.length ≥ limit
        · rw [if_pos hstop, Option.some_inj] at h
          rw [← h]
          show (res.map (outEstimate chunks)).sum ≤ maxT
          rw [hsum]
          exact hle
        · rw [if_neg hstop] at h
          exact ih _ _ _ _ h hsum hle

/-- C3.  If the search-handler budget phase succeeds, then: the summed
`token_estimate` of the returned results is at most `max_tokens`;
`total_matches` is the candidate count; and the processed part of the
ranked candidates is exactly a prefix on which a result is included iff
the tokens used so far plus its chunk estimate fit the budget (otherwise
its id is pushed into `truncated_ids`), where the prefix is the whole
list unless the included results reached `limit` right there and at no
earlier positive cut. -/
theorem budget_phase_spec (chunks : List Chunk) (rs : List SearchResult)
    (limit maxTokens : Nat) (out : SearchOutput)
    (h : budgetPhase chunks rs limit maxTokens = some out) :
    ((out.results).map (outEstimate chunks)).sum ≤ maxTokens ∧
    out.total_matches = rs.length ∧
    ∃ n ≤ rs.length,
      out.results = (greedyBudget chunks maxTokens (rs.take n) 0).1 ∧
      (out.truncated_ids.getD []) = (greedyBudget chunks maxTokens (rs.take n) 0).2 ∧
      (n = rs.length ∨ (out.results.length ≥ limit ∧ ∀ m, 0 < m → m < n →
        ((greedyBudget chunks maxTokens (rs.take m) 0).1).length < limit)) := by
  simp only [budgetPhase, Option.map_eq_some'] at h
  obtain ⟨p, hp, hout⟩ := h
  obtain ⟨n, hn, h1, h2, h3⟩ := budgetGo_char chunks limit maxTokens rs [] 0 [] p.1 p.2
    (by rw [hp])
  refine ⟨?_, ?_, n, hn, ?_, ?_, ?_⟩
  · have := budgetGo_sum chunks limit maxTokens rs [] 0 [] p hp (by simp) (Nat.zero_le _)
    rw [← hout]
    exact this
  · rw [← hout]
  · rw [← hout]
    simpa using h1
  · rw [← hout]
    have hg : (greedyBudget chunks maxTokens (rs.take n) 0).2 = p.2 := by
      simpa using h2.symm
    by_cases he : p.2.isEmpty = true
    · have he' : p.2 = [] := List.isEmpty_iff.mp he
      simp [he, hg, he']
    · simp only [Bool.not_eq_true] at he
      simp [he, hg]
  · rw [← hout]
    rcases h3 with h3 | ⟨h3a, h3b⟩
    · exact Or.inl h3
    · refine Or.inr ⟨by simpa using h3a, ?_⟩
      intro m hm1 hm2
      simpa using h3b m hm1 hm2

/-- Witness for C3: two candidates against a 150-token budget; the first
(100 tokens) is included, the second (90 more) is truncated. -/
theorem budget_phase_spec_witness :
    budgetPhase
      [⟨"a", "a", "s", "p", ChunkKind.Text, 0, 1, 1, "x", "h", 100, [], none, none, none⟩,
       ⟨"b", "b", "s", "p", ChunkKind.Text, 1, 2, 2, "y", "h2", 90, [], none, none, none⟩]
      [⟨"a", "c0001", 0, "p", 1, 1, "x", []⟩, ⟨"b", "c0002", 0, "p", 2, 2, "y", []⟩]
      10 150 =
      some ⟨[⟨"a", 0, "p", 1, 1, "x", none, []⟩], some ["b"], 2⟩ ∧
    (((⟨[⟨"a", 0, "p", 1, 1, "x", none, []⟩], some ["b"], 2⟩ : SearchOutput).results.map
      (outEstimate
        [⟨"a", "a", "s", "p", ChunkKind.Text, 0, 1, 1, "x", "h", 100, [], none, none, none⟩,
         ⟨"b", "b", "s", "p", ChunkKind.Text, 1, 2, 2, "y", "h2", 90, [], none, none, none⟩])).sum
      ≤ 150) :=
  ⟨rfl,
    (budget_phase_spec
      [⟨"a", "a", "s", "p", ChunkKind.Text, 0, 1, 1, "x", "h", 100, [], none, none, none⟩,
       ⟨"b", "b", "s", "p", ChunkKind.Text, 1, 2, 2, "y", "h2", 90, [], none, none, none⟩]
      [⟨"a", "c0001", 0, "p", 1, 1, "x", []⟩, ⟨"b", "c0002", 0, "p", 2, 2, "y", []⟩]
      10 150 ⟨[⟨"a", 0, "p", 1, 1, "x", none, []⟩], some ["b"], 2⟩ rfl).1⟩

/-! ## Claim C5: tokenize_counts refines tokenize -/

theorem toNat_charOfNat (n : Nat) (h : n < 55296) : (Char.ofNat n).toNat = n := by
  have hv : n.isValidChar := Or.inl h
  simp only [Char.ofNat, hv, dite_true, dif_pos]
  rfl

theorem utf8EncodeChar_ascii (c : Char) (h : c.toNat < 128) :
    utf8EncodeChar c = [c.toNat] := by
  simp [utf8EncodeChar, h]

theorem isAlnum_toNat_lt (c : Char) (h : isAlnumChar c = true) : c.toNat < 128 := by
  simp only [isAlnumChar, isAlnumByte, Bool.or_eq_true, Bool.and_eq_true,
    decide_eq_true_eq] at h
  omega

theorem isAlnumByte_high (b : Nat) (h : 128 ≤ b) : isAlnumByte b = false := by
  simp only [isAlnumByte, Bool.or_eq_false_iff, Bool.and_eq_false_iff,
    decide_eq_false_iff_not]
  omega

theorem utf8EncodeChar_not_alnum (c : Char) (h : isAlnumChar c = false) :
    ∀ b ∈ utf8EncodeChar c, isAlnumByte b = false := by
  intro b hb
  by_cases hc : c.toNat < 128
  · rw [utf8EncodeChar_ascii c hc] at hb
    simp only [List.mem_singleton] at hb
    subst hb
    exact h
  · simp only [utf8EncodeChar, if_neg hc] at hb
    by_cases h2 : c.toNat < 2048
    · rw [if_pos h2] at hb
      rcases List.mem_cons.mp hb with rfl | hb
      · exact isAlnumByte_high _ (by omega)
      · rcases List.mem_cons.mp hb with rfl | hb
        · exact isAlnumByte_high _ (by omega)
        · simp at hb
    · rw [if_neg h2] at hb
      by_cases h3 : c.toNat < 65536
      · rw [if_pos h3] at hb
        rcases List.mem_cons.mp hb with rfl | hb
        · exact isAlnumByte_high _ (by omega)
        · rcases List.mem_cons.mp hb with rfl | hb
          · exact isAlnumByte_high _ (by omega)
          · rcases List.mem_cons.mp hb with rfl | hb
            · exact isAlnumByte_high _ (by omega)
            · simp at hb
      · rw [if_neg h3] at hb
        rcases List.mem_cons.mp hb with rfl | hb
        · exact isAlnumByte_high _ (by omega)
        · rcases List.mem_cons.mp hb with rfl | hb
          · exact isAlnumByte_high _ (by omega)
          · rcases List.mem_cons.mp hb with rfl | hb
            · exact isAlnumByte_high _ (by omega)
            · rcases List.mem_cons.mp hb with rfl | hb
              · exact isAlnumByte_high _ (by omega)
              · simp at hb

theorem utf8EncodeChar_ne_nil (c : Char) : utf8EncodeChar c ≠ [] := by
  simp only [utf8EncodeChar]
  split
  · simp
  · split
    · simp
    · split <;> simp

theorem byteLower_toNat (c : Char) (h : isAlnumChar c = true) :
    byteLower c.toNat = (charLower c).toNat := by
  have hlt := isAlnum_toNat_lt c h
  simp only [byteLower, charLower]
  by_cases hc : (65 ≤ c.toNat && c.toNat ≤ 90) = true
  · rw [if_pos hc, if_pos hc, toNat_charOfNat _ (by omega)]
  · rw [if_neg hc, if_neg hc]

theorem cntStep_nonalnum_buf (s : CntState) (b : Nat) (hb : isAlnumByte b = false) :
    (cntStep s b).buf = [] := by
  simp only [cntStep, hb, Bool.false_eq_true, if_neg, ite_false]
  by_cases h : s.buf.length > 0
  · rw [if_pos h]
  · rw [if_neg h]
    simpa using Nat.le_of_not_lt h

theorem cntStep_noop (s : CntState) (b : Nat) (hb : isAlnumByte b = false)
    (hbuf : s.buf = []) : cntStep s b = s := by
  simp only [cntStep, hb, Bool.false_eq_true, if_neg, ite_false, hbuf]
  rfl

theorem foldl_cntStep_noop (bs : List Nat) (s : CntState)
    (hbs : ∀ b ∈ bs, isAlnumByte b = false) (hbuf : s.buf = []) :
    List.foldl cntStep s bs = s := by
  induction bs with
  | nil => rfl
  | cons b rest ih =>
    rw [List.foldl_cons, cntStep_noop s b (hbs b (by simp)) hbuf]
    exact ih (fun x hx => hbs x (by simp [hx]))

theorem bumpCount_lookup (m : List (String × Nat)) (k : String) (t : String) :
    lookupCount (bumpCount m k) t = lookupCount m t + if k = t then 1 else 0 := by
  induction m with
  | nil =>
    simp only [bumpCount, lookupCount]
    omega
  | cons a rest ih =>
    obtain ⟨ak, av⟩ := a
    simp only [bumpCount]
    by_cases hak : ak = k
    · rw [if_pos hak]
      simp only [lookupCount]
      by_cases h2 : ak = t
      · rw [if_pos h2, if_pos h2, if_pos (hak ▸ h2)]
      · rw [if_neg h2, if_neg h2, if_neg (fun hh : k = t => h2 (hak.trans hh))]
        rfl
    · rw [if_neg hak]
      simp only [lookupCount]
      by_cases h2 : ak = t
      · rw [if_pos h2, if_pos h2, if_neg (fun hh : k = t => hak (h2.symm ▸ hh.symm ▸ rfl))]
        omega
      · rw [if_neg h2, if_neg h2, ih]

/-- The simulation invariant between the byte-level `tokenize_counts`
state and the character-level `tokenize` state. -/
structure TokInv (m0 : List (String × Nat)) (sB : CntState) (sC : TokState) : Prop where
  buf : sB.buf = sC.buf.map Char.toNat
  tooLong : sB.tooLong = sC.tooLong
  docLen : sB.docLen = sC.tokens.length
  counts : ∀ t, lookupCount sB.counts t =
    lookupCount m0 t + (sC.tokens.map List.asString).count t

theorem tok_buf_decode (sB : CntState) (sC : TokState)
    (h : sB.buf = sC.buf.map Char.toNat) :
    (sB.buf.reverse).map Char.ofNat = sC.buf.reverse := by
  have hid : (Char.ofNat ∘ Char.toNat) = id := by
    funext c
    exact Char.ofNat_toNat c
  rw [h, ← List.map_reverse, List.map_map]
  simp [hid]

theorem count_asString_singleton (t : String) (x : List Char) :
    List.count t [x.asString] = if x.asString = t then 1 else 0 := by
  simp [List.count_singleton']

theorem cnt_flush_sim (m0 : List (String × Nat)) (sB : CntState) (sC : TokState)
    (b : Nat) (hb : isAlnumByte b = false) (h : TokInv m0 sB sC) :
    TokInv m0 (cntStep sB b) (tokFlush sC) := by
  by_cases hemp : sC.buf = []
  · have hbB : sB.buf = [] := by rw [h.buf, hemp]; rfl
    rw [cntStep_noop sB b hb hbB]
    simp only [tokFlush, hemp, List.isEmpty_nil, if_pos rfl, ite_true]
    exact h
  · have hbB : sB.buf ≠ [] := by
      rw [h.buf]
      simpa using hemp
    have hlen : sB.buf.length > 0 := List.length_pos.mpr hbB
    have hCemp : sC.buf.isEmpty = false := by simpa using hemp
    have hBemp : sB.buf.isEmpty = false := by simpa using hbB
    have htok : (sB.buf.reverse).map Char.ofNat = sC.buf.reverse :=
      tok_buf_decode sB sC h.buf
    have hstep : cntStep sB b = ⟨(cntFlush sB).counts, (cntFlush sB).docLen, [], false⟩ := by
      simp only [cntStep, hb, Bool.false_eq_true, if_neg, ite_false, if_pos hlen]
    rw [hstep]
    have houter : ¬((sB.buf.isEmpty || sB.tooLong) = true) ∨ sB.tooLong = true := by
      by_cases hTL : sB.tooLong = true
      · exact Or.inr hTL
      · refine Or.inl ?_
        rw [hBemp, (by simpa using hTL : sB.tooLong = false)]
        simp
    by_cases hTL : sC.tooLong = true
    · have hTLB : sB.tooLong = true := h.tooLong.trans hTL
      have hcf : cntFlush sB = sB := by
        simp only [cntFlush, hTLB, Bool.or_true, if_pos rfl, ite_true]
      have htf : tokFlush sC = ⟨sC.tokens, [], false⟩ := by
        simp only [tokFlush]
        rw [if_neg (show ¬(sC.buf.isEmpty = true) by rw [hCemp]; simp)]
        rw [show (!sC.tooLong && !is_noise_token sC.buf.reverse) = false by
          rw [hTL]; rfl]
        rw [if_neg (by simp : ¬(false = true))]
      rw [hcf, htf]
      exact ⟨rfl, rfl, h.docLen, h.counts⟩
    · have hTLC : sC.tooLong = false := by simpa using hTL
      have hTLB : sB.tooLong = false := h.tooLong.trans hTLC
      have houter' : ¬((sB.buf.isEmpty || sB.tooLong) = true) := by
        rw [hBemp, hTLB]
        simp
      by_cases hnoise : is_noise_token sC.buf.reverse = true
      · have hcf : cntFlush sB = sB := by
          simp only [cntFlush]
          rw [if_neg houter', htok, if_pos hnoise]
        have htf : tokFlush sC = ⟨sC.tokens, [], false⟩ := by
          simp only [tokFlush]
          rw [if_neg (show ¬(sC.buf.isEmpty = true) by rw [hCemp]; simp)]
          rw [show (!sC.tooLong && !is_noise_token sC.buf.reverse) = false by
            rw [hTLC, hnoise]; rfl]
          rw [if_neg (by simp : ¬(false = true))]
        rw [hcf, htf]
        exact ⟨rfl, rfl, h.docLen, h.counts⟩
      · have hnoise' : is_noise_token sC.buf.reverse = false := by simpa using hnoise
        have hcf : cntFlush sB =
            ⟨bumpCount sB.counts (sC.buf.reverse).asString, sB.docLen + 1,
              sB.buf, sB.tooLong⟩ := by
          simp only [cntFlush]
          rw [if_neg houter', htok, if_neg hnoise]
        have htf : tokFlush sC = ⟨sC.tokens ++ [sC.buf.reverse], [], false⟩ := by
          simp only [tokFlush]
          rw [if_neg (show ¬(sC.buf.isEmpty = true) by rw [hCemp]; simp)]
          rw [show (!sC.tooLong && !is_noise_token sC.buf.reverse) = true by
            rw [hTLC, hnoise']; rfl]
          rw [if_pos rfl]
        rw [hcf, htf]
        refine ⟨rfl, rfl, ?_, ?_⟩
        · simp [h.docLen]
        · intro t
          simp only [bumpCount_lookup, h.counts t, List.map_append, List.map_cons,
            List.map_nil, List.count_append, count_asString_singleton]
          omega

theorem cnt_tok_char (m0 : List (String × Nat)) (sB : CntState) (sC : TokState)
    (c : Char) (h : TokInv m0 sB sC) :
    TokInv m0 (List.foldl cntStep sB (utf8EncodeChar c)) (tokStep sC c) := by
  by_cases ha : isAlnumChar c = true
  · have hlt := isAlnum_toNat_lt c ha
    rw [utf8EncodeChar_ascii c hlt]
    simp only [List.foldl_cons, List.foldl_nil]
    have hby : isAlnumByte c.toNat = true := ha
    have hlenEq : sB.buf.length = sC.buf.length := by
      rw [h.buf, List.length_map]
    simp only [cntStep, tokStep, hby, ha, if_pos rfl, ite_true]
    by_cases hl : sC.buf.length < 96
    · rw [if_pos (by omega : sB.buf.length < 96), if_pos hl]
      refine ⟨?_, h.tooLong, h.docLen, h.counts⟩
      simp only [List.map_cons, ← byteLower_toNat c ha, h.buf]
    · rw [if_neg (by omega : ¬ sB.buf.length < 96), if_neg hl]
      exact ⟨h.buf, rfl, h.docLen, h.counts⟩
  · have ha' : isAlnumChar c = false := by simpa using ha
    have hnz := utf8EncodeChar_ne_nil c
    have hall := utf8EncodeChar_not_alnum c ha'
    obtain ⟨b0, bs, henc⟩ : ∃ b0 bs, utf8EncodeChar c = b0 :: bs := by
      cases hc : utf8EncodeChar c with
      | nil => exact absurd hc hnz
      | cons x xs => exact ⟨x, xs, rfl⟩
    have hb0 : isAlnumByte b0 = false := hall b0 (by rw [henc]; simp)
    have htS : tokStep sC c = tokFlush sC := by
      simp only [tokStep, ha', Bool.false_eq_true, if_neg, ite_false]
    rw [henc, htS, List.foldl_cons,
      foldl_cntStep_noop bs _ (fun b hb => hall b (by rw [henc]; simp [hb]))
        (cntStep_nonalnum_buf sB b0 hb0)]
    exact cnt_flush_sim m0 sB sC b0 hb0 h

theorem cnt_tok_run (m0 : List (String × Nat)) :
    ∀ (cs : List Char) (sB : CntState) (sC : TokState), TokInv m0 sB sC →
      TokInv m0 (List.foldl cntStep sB ((cs.map utf8EncodeChar).flatten))
        (List.foldl tokStep sC cs) := by
  intro cs
  induction cs with
  | nil => intro sB sC h; exact h
  | cons c rest ih =>
    intro sB sC h
    simp only [List.map_cons, List.flatten_cons, List.foldl_append, List.foldl_cons]
    exact ih _ _ (cnt_tok_char m0 sB sC c h)

theorem cnt_tok_finish (m0 : List (String × Nat)) (sB : CntState) (sC : TokState)
    (h : TokInv m0 sB sC) :
    (if sB.buf.length > 0 then cntFlush sB else sB).docLen = (tokFinish sC).length ∧
    ∀ t, lookupCount (if sB.buf.length > 0 then cntFlush sB else sB).counts t =
      lookupCount m0 t + ((tokFinish sC).map List.asString).count t := by
  by_cases hemp : sC.buf = []
  · have hbB : sB.buf = [] := by rw [h.buf, hemp]; rfl
    rw [if_neg (by simp [hbB] : ¬ sB.buf.length > 0)]
    have htf : tokFinish sC = sC.tokens := by
      simp [tokFinish, hemp]
    rw [htf]
    exact ⟨h.docLen, h.counts⟩
  · have hbB : sB.buf ≠ [] := by
      rw [h.buf]
      simpa using hemp
    have hCemp : sC.buf.isEmpty = false := by simpa using hemp
    have hBemp : sB.buf.isEmpty = false := by simpa using hbB
    rw [if_pos (List.length_pos.mpr hbB)]
    have htok : (sB.buf.reverse).map Char.ofNat = sC.buf.reverse :=
      tok_buf_decode sB sC h.buf
    by_cases hTL : sC.tooLong = true
    · have hTLB : sB.tooLong = true := h.tooLong.trans hTL
      have hcf : cntFlush sB = sB := by
        simp only [cntFlush, hTLB, Bool.or_true, if_pos rfl, ite_true]
      have htf : tokFinish sC = sC.tokens := by
        simp only [tokFinish]
        rw [show (!sC.buf.isEmpty && !sC.tooLong && !is_noise_token sC.buf.reverse) = false by
          rw [hCemp, hTL]; rfl]
        rw [if_neg (by simp : ¬(false = true))]
      rw [hcf, htf]
      exact ⟨h.docLen, h.counts⟩
    · have hTLC : sC.tooLong = false := by simpa using hTL
      have hTLB : sB.tooLong = false := h.tooLong.trans hTLC
      have houter' : ¬((sB.buf.isEmpty || sB.tooLong) = true) := by
        rw [hBemp, hTLB]
        simp
      by_cases hnoise : is_noise_token sC.buf.reverse = true
      · have hcf : cntFlush sB = sB := by
          simp only [cntFlush]
          rw [if_neg houter', htok, if_pos hnoise]
        have htf : tokFinish sC = sC.tokens := by
          simp only [tokFinish]
          rw [show (!sC.buf.isEmpty && !sC.tooLong && !is_noise_token sC.buf.reverse) = false by
            rw [hCemp, hTLC, hnoise]; rfl]
          rw [if_neg (by simp : ¬(false = true))]
        rw [hcf, htf]
        exact ⟨h.docLen, h.counts⟩
      · have hnoise' : is_noise_token sC.buf.reverse = false := by simpa using hnoise
        have hcf : cntFlush sB =
            ⟨bumpCount sB.counts (sC.buf.reverse).asString, sB.docLen + 1,
              sB.buf, sB.tooLong⟩ := by
          simp only [cntFlush]
          rw [if_neg houter', htok, if_neg hnoise]
        have htf : tokFinish sC = sC.tokens ++ [sC.buf.reverse] := by
          simp only [tokFinish]
          rw [show (!sC.buf.isEmpty && !sC.tooLong && !is_noise_token sC.buf.reverse) = true by
            rw [hCemp, hTLC, hnoise']; rfl]
          rw [if_pos rfl]
        rw [hcf, htf]
        refine ⟨?_, ?_⟩
        · simp [h.docLen]
        · intro t
          simp only [bumpCount_lookup, h.counts t, List.map_append, List.map_cons,
            List.map_nil, List.count_append, count_asString_singleton]
          omega

/-- C5.  `tokenize_counts` and `tokenize` agree: the returned document
length is the number of tokens `tokenize` produces on the same string,
and the accumulated counts map holds exactly the multiset of those
tokens (each accepted token mapped to its number of occurrences, on top
of whatever the map held before). -/
theorem tokenize_counts_refines_tokenize (s : String) (m0 : List (String × Nat)) :
    (tokenize_counts s m0).2 = (tokenize s).length ∧
    ∀ t : String, lookupCount (tokenize_counts s m0).1 t =
      lookupCount m0 t + (tokenize s).count t := by
  have hinv : TokInv m0 ⟨m0, 0, [], false⟩ ⟨[], [], false⟩ := by
    refine ⟨rfl, rfl, rfl, ?_⟩
    intro t
    simp
  have hrun := cnt_tok_run m0 s.data ⟨m0, 0, [], false⟩ ⟨[], [], false⟩ hinv
  have hfin := cnt_tok_finish m0 _ _ hrun
  constructor
  · rw [show (tokenize_counts s m0).2 =
      (if (List.foldl cntStep ⟨m0, 0, [], false⟩ ((s.data.map utf8EncodeChar).flatten)).buf.length > 0
        then cntFlush (List.foldl cntStep ⟨m0, 0, [], false⟩ ((s.data.map utf8EncodeChar).flatten))
        else List.foldl cntStep ⟨m0, 0, [], false⟩ ((s.data.map utf8EncodeChar).flatten)).docLen
      from rfl]
    rw [hfin.1]
    simp [tokenize]
  · intro t
    rw [show (tokenize_counts s m0).1 =
      (if (List.foldl cntStep ⟨m0, 0, [], false⟩ ((s.data.map utf8EncodeChar).flatten)).buf.length > 0
        then cntFlush (List.foldl cntStep ⟨m0, 0, [], false⟩ ((s.data.map utf8EncodeChar).flatten))
        else List.foldl cntStep ⟨m0, 0, [], false⟩ ((s.data.map utf8EncodeChar).flatten)).counts
      from rfl]
    rw [hfin.2 t]
    rfl

/-! ## Claim C4: update after ingest is idempotent -/

section C4Sim

variable (hashStr : String → String) (hashB : List Nat → String)
variable (utf8decode : List Nat → Option String)
variable (drafts_of : String → String → ChunkKind → IngestOptions → List ChunkDraft)

/-- The `(file.path, file.sha256)` projection that `compute_index_id`
depends on. -/
def metaProj (m : FileMeta) : String × String := (m.path, m.sha256)

/-- The `max_chunks_per_file` truncation applied by `afterChunks`. -/
def truncChunks (options : IngestOptions) (cs : List Chunk) : List Chunk :=
  if cs.length > options.max_chunks_per_file then cs.take options.max_chunks_per_file
  else cs

/-- The `FileMeta` list appended by `chunkFresh` (one meta on success,
none on a UTF-8 failure). -/
def freshMetas (f : FileInput) (kind : ChunkKind) (file_hash : String) :
    List FileMeta :=
  if kind = ChunkKind.Image then
    [⟨f.path, kind, f.data.length, file_hash, 1, f.mtime_ms, f.fingerprint_sha256⟩]
  else
    match utf8decode f.data with
    | none => []
    | some text =>
      [⟨f.path, kind, f.data.length, file_hash, rustLineCount text, f.mtime_ms,
        f.fingerprint_sha256⟩]

/-- The chunk list produced by `chunkFresh` before the
`max_chunks_per_file` truncation. -/
def freshChunksRaw (options : IngestOptions) (f : FileInput) (kind : ChunkKind) :
    List Chunk :=
  if kind = ChunkKind.Image then
    (chunk_file hashStr drafts_of f.path "" kind options).map fun c =>
      { c with asset_path := some ("images/" ++ sanitize_zip_path f.path) }
  else
    match utf8decode f.data with
    | none => []
    | some text => chunk_file hashStr drafts_of f.path text kind options

theorem chunkFresh_total_bytes (options : IngestOptions) (s : PipState) (tb : Nat)
    (f : FileInput) (kind : ChunkKind) (fh : String) :
    (chunkFresh hashStr utf8decode drafts_of options s tb f kind fh).total_bytes = tb := by
  by_cases hk : kind = ChunkKind.Image
  · subst hk; rfl
  · unfold chunkFresh
    rw [if_neg hk]
    cases hdec : utf8decode f.data with
    | none => rfl
    | some text => rfl

theorem chunkFresh_file_metas (options : IngestOptions) (s : PipState) (tb : Nat)
    (f : FileInput) (kind : ChunkKind) (fh : String) :
    (chunkFresh hashStr utf8decode drafts_of options s tb f kind fh).file_metas =
      s.file_metas ++ freshMetas utf8decode f kind fh := by
  by_cases hk : kind = ChunkKind.Image
  · subst hk; rfl
  · unfold chunkFresh freshMetas
    rw [if_neg hk, if_neg hk]
    cases hdec : utf8decode f.data with
    | none => simp
    | some text => rfl

theorem chunkFresh_chunks (options : IngestOptions) (s : PipState) (tb : Nat)
    (f : FileInput) (kind : ChunkKind) (fh : String) :
    (chunkFresh hashStr utf8decode drafts_of options s tb f kind fh).chunks =
      s.chunks ++
        truncChunks options (freshChunksRaw hashStr utf8decode drafts_of options f kind) := by
  by_cases hk : kind = ChunkKind.Image
  · subst hk; rfl
  · unfold chunkFresh freshChunksRaw
    rw [if_neg hk, if_neg hk]
    cases hdec : utf8decode f.data with
    | none => unfold truncChunks; simp
    | some text => rfl

theorem finalize_go_path (path : String) :
    ∀ (drafts : List ChunkDraft) (i : Nat) (cnts : String → Nat),
      ∀ c ∈ finalize_go hashStr path drafts i cnts, c.path = path := by
  intro drafts
  induction drafts with
  | nil => intro i cnts c hc; simp [finalize_go] at hc
  | cons d rest ih =>
    intro i cnts c hc
    simp only [finalize_go, List.mem_cons] at hc
    rcases hc with h | h
    · rw [h]
    · exact ih _ _ c h

theorem chunk_file_path (path text : String) (kind : ChunkKind)
    (options : IngestOptions) :
    ∀ c ∈ chunk_file hashStr drafts_of path text kind options, c.path = path :=
  fun c hc => finalize_go_path hashStr path _ 0 _ c hc

theorem freshChunksRaw_path (options : IngestOptions) (f : FileInput)
    (kind : ChunkKind) :
    ∀ c ∈ freshChunksRaw hashStr utf8decode drafts_of options f kind,
      c.path = f.path := by
  intro c hc
  by_cases hk : kind = ChunkKind.Image
  · subst hk
    unfold freshChunksRaw at hc
    rw [if_pos rfl] at hc
    obtain ⟨c0, hc0, rfl⟩ := List.mem_map.mp hc
    exact chunk_file_path hashStr drafts_of f.path "" ChunkKind.Image options c0 hc0
  · unfold freshChunksRaw at hc
    rw [if_neg hk] at hc
    cases hdec : utf8decode f.data with
    | none =>
      rw [hdec] at hc
      exact absurd hc (List.not_mem_nil c)
    | some text =>
      rw [hdec] at hc
      exact chunk_file_path hashStr drafts_of f.path text kind options c hc

theorem truncChunks_subset (options : IngestOptions) (cs : List Chunk) :
    ∀ c ∈ truncChunks options cs, c ∈ cs := by
  intro c hc
  unfold truncChunks at hc
  split at hc
  · exact List.mem_of_mem_take hc
  · exact hc

end C4Sim

section C4Sim2

variable (hashStr : String → String) (hashB : List Nat → String)
variable (utf8decode : List Nat → Option String)
variable (drafts_of : String → String → ChunkKind → IngestOptions → List ChunkDraft)

theorem ingestStep_chunks_mono (options : IngestOptions) (s : PipState)
    (f : FileInput) :
    ∀ c ∈ s.chunks,
      c ∈ (ingestStep hashStr hashB utf8decode drafts_of options s f).chunks := by
  intro c hc
  unfold ingestStep
  split
  · exact hc
  · split
    · exact hc
    · rw [chunkFresh_chunks hashStr utf8decode drafts_of options s _ f _ _]
      exact List.mem_append_left _ hc

theorem ingest_fold_chunks_mono (options : IngestOptions) :
    ∀ (L : List FileInput) (s : PipState), ∀ c ∈ s.chunks,
      c ∈ (L.foldl (ingestStep hashStr hashB utf8decode drafts_of options) s).chunks := by
  intro L
  induction L with
  | nil => intro s c hc; exact hc
  | cons f rest ih =>
    intro s c hc
    rw [List.foldl_cons]
    exact ih _ c (ingestStep_chunks_mono hashStr hashB utf8decode drafts_of options s f c hc)

/-- A meta appended during ingest records the path and content hash of
some processed file that was an image or UTF-8 decodable. -/
def MetaSrc (f : FileInput) (m : FileMeta) : Prop :=
  m.path = f.path ∧ m.sha256 = hashB f.data ∧
    (detect_kind f.path = ChunkKind.Image ∨ ∃ t, utf8decode f.data = some t)

theorem ingestStep_metas_src (options : IngestOptions) (s : PipState) (f : FileInput) :
    ∀ m ∈ (ingestStep hashStr hashB utf8decode drafts_of options s f).file_metas,
      m ∈ s.file_metas ∨ MetaSrc hashB utf8decode f m := by
  intro m hm
  unfold ingestStep at hm
  split at hm
  · exact Or.inl hm
  · split at hm
    · exact Or.inl hm
    · rw [chunkFresh_file_metas hashStr utf8decode drafts_of options s _ f _ _] at hm
      rcases List.mem_append.mp hm with h | h
      · exact Or.inl h
      · right
        unfold freshMetas at h
        by_cases hk : detect_kind f.path = ChunkKind.Image
        · rw [if_pos hk] at h
          rcases List.mem_singleton.mp h with rfl
          exact ⟨rfl, rfl, Or.inl hk⟩
        · rw [if_neg hk] at h
          cases hdec : utf8decode f.data with
          | none =>
            rw [hdec] at h
            exact absurd h (List.not_mem_nil m)
          | some text =>
            rw [hdec] at h
            rcases List.mem_singleton.mp h with rfl
            exact ⟨rfl, rfl, Or.inr ⟨text, hdec⟩⟩

theorem ingest_fold_metas_src (options : IngestOptions) :
    ∀ (L : List FileInput) (s : PipState),
      ∀ m ∈ (L.foldl (ingestStep hashStr hashB utf8decode drafts_of options) s).file_metas,
        m ∈ s.file_metas ∨ ∃ f ∈ L, MetaSrc hashB utf8decode f m := by
  intro L
  induction L with
  | nil => intro s m hm; exact Or.inl hm
  | cons f rest ih =>
    intro s m hm
    rw [List.foldl_cons] at hm
    rcases ih _ m hm with h | ⟨g, hg, hs⟩
    · rcases ingestStep_metas_src hashStr hashB utf8decode drafts_of options s f m h with
        h2 | h2
      · exact Or.inl h2
      · exact Or.inr ⟨f, List.mem_cons_self f rest, h2⟩
    · exact Or.inr ⟨g, List.mem_cons_of_mem f hg, hs⟩

theorem buildPrevMap_char :
    ∀ (metas : List FileMeta) (cm : String → Option (List Chunk)) (p : String)
      (m : FileMeta) (chs : List Chunk),
      buildPrevMap metas cm p = some (m, chs) →
      m.path = p ∧ m ∈ metas ∧ cm p = some chs := by
  intro metas
  induction metas with
  | nil => intro cm p m chs h; simp [buildPrevMap] at h
  | cons m0 rest ih =>
    intro cm p m chs h
    cases hcm : cm m0.path with
    | some chs0 =>
      simp only [buildPrevMap, hcm] at h
      by_cases hp : p = m0.path
      · rw [if_pos hp] at h
        simp only [Option.some.injEq, Prod.mk.injEq] at h
        obtain ⟨h1, h2⟩ := h
        subst h1
        subst h2
        refine ⟨hp.symm, List.mem_cons_self _ _, ?_⟩
        rw [hp]
        exact hcm
      · rw [if_neg hp] at h
        obtain ⟨h1, h2, h3⟩ := ih _ p m chs h
        refine ⟨h1, List.mem_cons_of_mem _ h2, ?_⟩
        simpa only [if_neg hp] using h3
    | none =>
      simp only [buildPrevMap, hcm] at h
      obtain ⟨h1, h2, h3⟩ := ih _ p m chs h
      exact ⟨h1, List.mem_cons_of_mem _ h2, h3⟩

theorem initChunkMap_char (chunks : List Chunk) (p : String) (chs : List Chunk)
    (h : initChunkMap chunks p = some chs) :
    chs = chunks.filter fun c => c.path = p := by
  simp only [initChunkMap] at h
  split at h
  · exact absurd h (by simp)
  · simp only [Option.some.injEq] at h
    exact h.symm

theorem prevMapOf_char (prev : IndexFile) (p : String) (m : FileMeta)
    (chs : List Chunk) (h : prevMapOf prev p = some (m, chs)) :
    m.path = p ∧ m ∈ prev.files ∧ chs = prev.chunks.filter fun c => c.path = p := by
  obtain ⟨h1, h2, h3⟩ := buildPrevMap_char prev.files (initChunkMap prev.chunks) p m chs h
  exact ⟨h1, h2, initChunkMap_char prev.chunks p chs h3⟩

theorem compute_index_id_proj (ms1 ms2 : List FileMeta)
    (h : ms1.map metaProj = ms2.map metaProj) :
    compute_index_id hashStr ms1 = compute_index_id hashStr ms2 := by
  have key : ∀ (ms : List FileMeta) (seed : String),
      List.foldl (fun seed f => seed ++ f.path ++ "\n" ++ f.sha256 ++ "\n") seed ms =
      List.foldl (fun seed pr => seed ++ pr.1 ++ "\n" ++ pr.2 ++ "\n") seed
        (ms.map metaProj) := by
    intro ms
    induction ms with
    | nil => intro seed; rfl
    | cons m rest ih =>
      intro seed
      simp only [List.foldl_cons, List.map_cons, metaProj, ih]
  unfold compute_index_id
  rw [key ms1 "", key ms2 "", h]

theorem freshMetas_proj_of_ok (f : FileInput) (kind : ChunkKind) (fh : String)
    (hok : kind = ChunkKind.Image ∨ ∃ t, utf8decode f.data = some t) :
    (freshMetas utf8decode f kind fh).map metaProj = [(f.path, fh)] := by
  unfold freshMetas
  by_cases hk : kind = ChunkKind.Image
  · rw [if_pos hk]
    rfl
  · rw [if_neg hk]
    rcases hok with hk2 | ⟨t, ht⟩
    · exact absurd hk2 hk
    · rw [ht]
      rfl

theorem chunkFresh_sim (options : IngestOptions) (sI sU : PipState) (tb : Nat)
    (f : FileInput) (kind : ChunkKind) (fh : String)
    (h2 : sU.file_metas.map metaProj = sI.file_metas.map metaProj)
    (h3 : ∀ c ∈ sI.chunks, c ∈ sU.chunks) :
    (chunkFresh hashStr utf8decode drafts_of options sU tb f kind fh).total_bytes =
      (chunkFresh hashStr utf8decode drafts_of options sI tb f kind fh).total_bytes ∧
    (chunkFresh hashStr utf8decode drafts_of options sU tb f kind fh).file_metas.map
        metaProj =
      (chunkFresh hashStr utf8decode drafts_of options sI tb f kind fh).file_metas.map
        metaProj ∧
    ∀ c ∈ (chunkFresh hashStr utf8decode drafts_of options sI tb f kind fh).chunks,
      c ∈ (chunkFresh hashStr utf8decode drafts_of options sU tb f kind fh).chunks := by
  refine ⟨?_, ?_, ?_⟩
  · rw [chunkFresh_total_bytes hashStr utf8decode drafts_of options sU tb f kind fh,
      chunkFresh_total_bytes hashStr utf8decode drafts_of options sI tb f kind fh]
  · rw [chunkFresh_file_metas hashStr utf8decode drafts_of options sU tb f kind fh,
      chunkFresh_file_metas hashStr utf8decode drafts_of options sI tb f kind fh,
      List.map_append, List.map_append, h2]
  · intro c hc
    rw [chunkFresh_chunks hashStr utf8decode drafts_of options sI tb f kind fh] at hc
    rw [chunkFresh_chunks hashStr utf8decode drafts_of options sU tb f kind fh]
    rcases List.mem_append.mp hc with h | h
    · exact List.mem_append_left _ (h3 c h)
    · exact List.mem_append_right _ h

end C4Sim2

section C4Sim3

variable (hashStr : String → String) (hashB : List Nat → String)
variable (utf8decode : List Nat → Option String)
variable (drafts_of : String → String → ChunkKind → IngestOptions → List ChunkDraft)

theorem update_fold_sim (options : IngestOptions) (F : List FileInput)
    (prev : IndexFile)
    (HF : ∀ f1 ∈ F, ∀ f2 ∈ F, hashB f1.data = hashB f2.data → f1.data = f2.data)
    (Hsrc : ∀ m ∈ prev.files, ∃ g ∈ F, MetaSrc hashB utf8decode g m) :
    ∀ (L : List FileInput) (sI sU : PipState),
      (∀ f ∈ L, f ∈ F) →
      (∀ c ∈ (L.foldl (ingestStep hashStr hashB utf8decode drafts_of options) sI).chunks,
        c ∈ prev.chunks) →
      sU.total_bytes = sI.total_bytes →
      sU.file_metas.map metaProj = sI.file_metas.map metaProj →
      (∀ c ∈ sI.chunks, c ∈ sU.chunks) →
      (L.foldl (updateStep hashStr hashB utf8decode drafts_of options (prevMapOf prev))
          sU).total_bytes =
        (L.foldl (ingestStep hashStr hashB utf8decode drafts_of options) sI).total_bytes ∧
      (L.foldl (updateStep hashStr hashB utf8decode drafts_of options (prevMapOf prev))
          sU).file_metas.map metaProj =
        (L.foldl (ingestStep hashStr hashB utf8decode drafts_of options)
          sI).file_metas.map metaProj ∧
      ∀ c ∈ (L.foldl (ingestStep hashStr hashB utf8decode drafts_of options) sI).chunks,
        c ∈ (L.foldl (updateStep hashStr hashB utf8decode drafts_of options
          (prevMapOf prev)) sU).chunks := by
  intro L
  induction L with
  | nil => intro sI sU _ _ h1 h2 h3; exact ⟨h1, h2, h3⟩
  | cons f rest ih =>
    intro sI sU hmem hfin h1 h2 h3
    rw [List.foldl_cons] at hfin
    by_cases hg1 : sI.total_bytes + f.data.length > options.max_total_bytes
    · have hgU1 : sU.total_bytes + f.data.length > options.max_total_bytes := by
        rw [h1]; exact hg1
      have eI : ingestStep hashStr hashB utf8decode drafts_of options sI f =
          { sI with warnings := sI.warnings ++
              [⟨f.path, "max_total_bytes", "Total size limit exceeded; file skipped."⟩] } := by
        unfold ingestStep
        rw [if_pos hg1]
      have eU : updateStep hashStr hashB utf8decode drafts_of options (prevMapOf prev)
          sU f =
          { sU with warnings := sU.warnings ++
              [⟨f.path, "max_total_bytes", "Total size limit exceeded; file skipped."⟩]
            } := by
        unfold updateStep
        rw [if_pos hgU1]
      exact ih _ _ (fun g hg => hmem g (List.mem_cons_of_mem f hg)) hfin
        (by rw [eI, eU]; exact h1) (by rw [eI, eU]; exact h2)
        (by rw [eI, eU]; exact h3)
    · by_cases hg2 : f.data.length > options.max_file_bytes
      · have hgU1 : ¬ sU.total_bytes + f.data.length > options.max_total_bytes := by
          rw [h1]; exact hg1
        have eI : ingestStep hashStr hashB utf8decode drafts_of options sI f =
            { sI with warnings := sI.warnings ++
                [⟨f.path, "max_file_bytes", "File size limit exceeded; file skipped."⟩]
              } := by
          unfold ingestStep
          rw [if_neg hg1, if_pos hg2]
        have eU : updateStep hashStr hashB utf8decode drafts_of options (prevMapOf prev)
            sU f =
            { sU with warnings := sU.warnings ++
                [⟨f.path, "max_file_bytes", "File size limit exceeded; file skipped."⟩]
              } := by
          unfold updateStep
          rw [if_neg hgU1, if_pos hg2]
        exact ih _ _ (fun g hg => hmem g (List.mem_cons_of_mem f hg)) hfin
          (by rw [eI, eU]; exact h1) (by rw [eI, eU]; exact h2)
          (by rw [eI, eU]; exact h3)
      · have hgU1 : ¬ sU.total_bytes + f.data.length > options.max_total_bytes := by
          rw [h1]; exact hg1
        have eI : ingestStep hashStr hashB utf8decode drafts_of options sI f =
            chunkFresh hashStr utf8decode drafts_of options sI
              (sI.total_bytes + f.data.length) f (detect_kind f.path) (hashB f.data) := by
          unfold ingestStep
          rw [if_neg hg1, if_neg hg2]
        cases hpm : prevMapOf prev f.path with
        | none =>
          have eU : updateStep hashStr hashB utf8decode drafts_of options
              (prevMapOf prev) sU f =
              chunkFresh hashStr utf8decode drafts_of options sU
                (sI.total_bytes + f.data.length) f (detect_kind f.path)
                (hashB f.data) := by
            unfold updateStep
            rw [if_neg hgU1, if_neg hg2]
            simp only [hpm, h1]
          obtain ⟨k1, k2, k3⟩ := chunkFresh_sim hashStr utf8decode drafts_of options
            sI sU (sI.total_bytes + f.data.length) f (detect_kind f.path)
            (hashB f.data) h2 h3
          exact ih _ _ (fun g hg => hmem g (List.mem_cons_of_mem f hg)) hfin
            (by rw [eI, eU]; exact k1) (by rw [eI, eU]; exact k2)
            (by rw [eI, eU]; exact k3)
        | some pair =>
          by_cases hsha : pair.1.sha256 = hashB f.data
          · have eU : updateStep hashStr hashB utf8decode drafts_of options
                (prevMapOf prev) sU f =
                { sU with
                  total_bytes := sU.total_bytes + f.data.length
                  file_metas := sU.file_metas ++ [pair.1]
                  chunks := sU.chunks ++ pair.2 } := by
              unfold updateStep
              rw [if_neg hgU1, if_neg hg2]
              simp only [hpm, if_pos hsha]
            obtain ⟨hpath, hmemprev, hfilter⟩ :=
              prevMapOf_char prev f.path pair.1 pair.2 hpm
            obtain ⟨g, hgF, hgpath, hgsha, hgok⟩ := Hsrc pair.1 hmemprev
            have hdata : g.data = f.data :=
              HF g hgF f (hmem f (List.mem_cons_self f rest))
                (hgsha.symm.trans hsha)
            have hgfpath : g.path = f.path := hgpath.symm.trans hpath
            have hfok : detect_kind f.path = ChunkKind.Image ∨
                ∃ t, utf8decode f.data = some t := by
              rcases hgok with hgo | ⟨t, ht⟩
              · exact Or.inl (hgfpath ▸ hgo)
              · exact Or.inr ⟨t, hdata ▸ ht⟩
            have hproj : (freshMetas utf8decode f (detect_kind f.path)
                (hashB f.data)).map metaProj = [(f.path, hashB f.data)] :=
              freshMetas_proj_of_ok utf8decode f (detect_kind f.path)
                (hashB f.data) hfok
            have k1 : (updateStep hashStr hashB utf8decode drafts_of options
                (prevMapOf prev) sU f).total_bytes =
                (ingestStep hashStr hashB utf8decode drafts_of options sI f).total_bytes := by
              rw [eI, eU,
                chunkFresh_total_bytes hashStr utf8decode drafts_of options sI
                  (sI.total_bytes + f.data.length) f (detect_kind f.path)
                  (hashB f.data)]
              show sU.total_bytes + f.data.length = sI.total_bytes + f.data.length
              rw [h1]
            have k2 : (updateStep hashStr hashB utf8decode drafts_of options
                (prevMapOf prev) sU f).file_metas.map metaProj =
                (ingestStep hashStr hashB utf8decode drafts_of options
                  sI f).file_metas.map metaProj := by
              rw [eI, eU,
                chunkFresh_file_metas hashStr utf8decode drafts_of options sI
                  (sI.total_bytes + f.data.length) f (detect_kind f.path)
                  (hashB f.data)]
              show (sU.file_metas ++ [pair.1]).map metaProj = _
              rw [List.map_append, List.map_append, h2, hproj]
              have : [pair.1].map metaProj = [(f.path, hashB f.data)] := by
                simp only [List.map_cons, List.map_nil, metaProj, hpath, hsha]
              rw [this]
            have k3 : ∀ c ∈ (ingestStep hashStr hashB utf8decode drafts_of options
                sI f).chunks,
                c ∈ (updateStep hashStr hashB utf8decode drafts_of options
                  (prevMapOf prev) sU f).chunks := by
              intro c hc
              rw [eI, chunkFresh_chunks hashStr utf8decode drafts_of options sI
                (sI.total_bytes + f.data.length) f (detect_kind f.path)
                (hashB f.data)] at hc
              rw [eU]
              show c ∈ sU.chunks ++ pair.2
              rcases List.mem_append.mp hc with h | h
              · exact List.mem_append_left _ (h3 c h)
              · have hcpath : c.path = f.path :=
                  freshChunksRaw_path hashStr utf8decode drafts_of options f
                    (detect_kind f.path) c
                    (truncChunks_subset options _ c h)
                have hcIn : c ∈ (ingestStep hashStr hashB utf8decode drafts_of
                    options sI f).chunks := by
                  rw [eI, chunkFresh_chunks hashStr utf8decode drafts_of options sI
                    (sI.total_bytes + f.data.length) f (detect_kind f.path)
                    (hashB f.data)]
                  exact List.mem_append_right _ h
                have hcprev : c ∈ prev.chunks :=
                  hfin c (ingest_fold_chunks_mono hashStr hashB utf8decode drafts_of
                    options rest
                    (ingestStep hashStr hashB utf8decode drafts_of options sI f)
                    c hcIn)
                refine List.mem_append_right _ ?_
                rw [hfilter]
                exact List.mem_filter.mpr ⟨hcprev, by simp [hcpath]⟩
            exact ih _ _ (fun g2 hg2m => hmem g2 (List.mem_cons_of_mem f hg2m)) hfin
              k1 k2 k3
          · have eU : updateStep hashStr hashB utf8decode drafts_of options
                (prevMapOf prev) sU f =
                chunkFresh hashStr utf8decode drafts_of options sU
                  (sI.total_bytes + f.data.length) f (detect_kind f.path)
                  (hashB f.data) := by
              unfold updateStep
              rw [if_neg hgU1, if_neg hg2]
              simp only [hpm, if_neg hsha, h1]
            obtain ⟨k1, k2, k3⟩ := chunkFresh_sim hashStr utf8decode drafts_of options
              sI sU (sI.total_bytes + f.data.length) f (detect_kind f.path)
              (hashB f.data) h2 h3
            exact ih _ _ (fun g hg => hmem g (List.mem_cons_of_mem f hg)) hfin
              (by rw [eI, eU]; exact k1) (by rw [eI, eU]; exact k2)
              (by rw [eI, eU]; exact k3)

end C4Sim3

/-- C4.  Running `update_index` on the `IndexFile` produced by
`ingest_files` over the same file set and options yields an index whose
`index_id` equals the original one, and every chunk of the original
index appears byte-for-byte among the updated chunks (assuming the
content digest is collision-free on the data of the given files, which
the reuse rule relies on). -/
theorem update_after_ingest_idempotent (hashStr : String → String)
    (hashB : List Nat → String) (utf8decode : List Nat → Option String)
    (drafts_of : String → String → ChunkKind → IngestOptions → List ChunkDraft)
    (F : List FileInput) (options : IngestOptions)
    (HF : ∀ f1 ∈ F, ∀ f2 ∈ F, hashB f1.data = hashB f2.data → f1.data = f2.data) :
    (update_index hashStr hashB utf8decode drafts_of
        (ingest_files hashStr hashB utf8decode drafts_of F options) F
        options).index_id =
      (ingest_files hashStr hashB utf8decode drafts_of F options).index_id ∧
    ∀ c ∈ (ingest_files hashStr hashB utf8decode drafts_of F options).chunks,
      c ∈ (update_index hashStr hashB utf8decode drafts_of
        (ingest_files hashStr hashB utf8decode drafts_of F options) F options).chunks := by
  have hperm := sortByB_perm inputLeB F
  have Hsrc : ∀ m ∈ (ingest_files hashStr hashB utf8decode drafts_of F options).files,
      ∃ g ∈ F, MetaSrc hashB utf8decode g m := by
    intro m hm
    have hm2 : m ∈ ((sortByB inputLeB F).foldl
        (ingestStep hashStr hashB utf8decode drafts_of options)
        ⟨0, [], [], []⟩).file_metas := hm
    rcases ingest_fold_metas_src hashStr hashB utf8decode drafts_of options
      (sortByB inputLeB F) ⟨0, [], [], []⟩ m hm2 with h | ⟨g, hg, hs⟩
    · exact absurd h (List.not_mem_nil m)
    · exact ⟨g, hperm.mem_iff.mp hg, hs⟩
  have hfin : ∀ c ∈ ((sortByB inputLeB F).foldl
      (ingestStep hashStr hashB utf8decode drafts_of options) ⟨0, [], [], []⟩).chunks,
      c ∈ (ingest_files hashStr hashB utf8decode drafts_of F options).chunks := by
    intro c hc
    show c ∈ sortByB chunkLeB ((sortByB inputLeB F).foldl
      (ingestStep hashStr hashB utf8decode drafts_of options) ⟨0, [], [], []⟩).chunks
    exact (sortByB_perm chunkLeB _).mem_iff.mpr hc
  obtain ⟨hT, hM, hC⟩ := update_fold_sim hashStr hashB utf8decode drafts_of options F
    (ingest_files hashStr hashB utf8decode drafts_of F options) HF Hsrc
    (sortByB inputLeB F) ⟨0, [], [], []⟩ ⟨0, [], [], []⟩
    (fun f hf => hperm.mem_iff.mp hf) hfin rfl rfl
    (fun c hc => absurd hc (List.not_mem_nil c))
  constructor
  · show compute_index_id hashStr ((sortByB inputLeB F).foldl
        (updateStep hashStr hashB utf8decode drafts_of options
          (prevMapOf (ingest_files hashStr hashB utf8decode drafts_of F options)))
        ⟨0, [], [], []⟩).file_metas =
      compute_index_id hashStr ((sortByB inputLeB F).foldl
        (ingestStep hashStr hashB utf8decode drafts_of options)
        ⟨0, [], [], []⟩).file_metas
    exact compute_index_id_proj hashStr _ _ hM
  · intro c hc
    have hc1 : c ∈ sortByB chunkLeB ((sortByB inputLeB F).foldl
        (ingestStep hashStr hashB utf8decode drafts_of options)
        ⟨0, [], [], []⟩).chunks := hc
    have hc2 := (sortByB_perm chunkLeB _).mem_iff.mp hc1
    show c ∈ sortByB chunkLeB ((sortByB inputLeB F).foldl
        (updateStep hashStr hashB utf8decode drafts_of options
          (prevMapOf (ingest_files hashStr hashB utf8decode drafts_of F options)))
        ⟨0, [], [], []⟩).chunks
    exact (sortByB_perm chunkLeB _).mem_iff.mpr (hC c hc2)

theorem update_after_ingest_idempotent_witness :
    (∀ f1 ∈ ([⟨"a.txt", [1], none, none⟩, ⟨"b.txt", [2], none, none⟩] : List FileInput),
      ∀ f2 ∈ ([⟨"a.txt", [1], none, none⟩, ⟨"b.txt", [2], none, none⟩] : List FileInput),
        (fun bs : List Nat => if bs = [1] then "h1" else "h2") f1.data =
          (fun bs : List Nat => if bs = [1] then "h1" else "h2") f2.data →
        f1.data = f2.data) ∧
    ((update_index (fun s => s)
        (fun bs : List Nat => if bs = [1] then "h1" else "h2")
        (fun _ => some "x") (fun _ _ _ _ => [])
        (ingest_files (fun s => s)
          (fun bs : List Nat => if bs = [1] then "h1" else "h2")
          (fun _ => some "x") (fun _ _ _ _ => [])
          [⟨"a.txt", [1], none, none⟩, ⟨"b.txt", [2], none, none⟩]
          ⟨100, 200, 10, 100, 10⟩)
        [⟨"a.txt", [1], none, none⟩, ⟨"b.txt", [2], none, none⟩]
        ⟨100, 200, 10, 100, 10⟩).index_id =
      (ingest_files (fun s => s)
        (fun bs : List Nat => if bs = [1] then "h1" else "h2")
        (fun _ => some "x") (fun _ _ _ _ => [])
        [⟨"a.txt", [1], none, none⟩, ⟨"b.txt", [2], none, none⟩]
        ⟨100, 200, 10, 100, 10⟩).index_id ∧
    ∀ c ∈ (ingest_files (fun s => s)
        (fun bs : List Nat => if bs = [1] then "h1" else "h2")
        (fun _ => some "x") (fun _ _ _ _ => [])
        [⟨"a.txt", [1], none, none⟩, ⟨"b.txt", [2], none, none⟩]
        ⟨100, 200, 10, 100, 10⟩).chunks,
      c ∈ (update_index (fun s => s)
        (fun bs : List Nat => if bs = [1] then "h1" else "h2")
        (fun _ => some "x") (fun _ _ _ _ => [])
        (ingest_files (fun s => s)
          (fun bs : List Nat => if bs = [1] then "h1" else "h2")
          (fun _ => some "x") (fun _ _ _ _ => [])
          [⟨"a.txt", [1], none, none⟩, ⟨"b.txt", [2], none, none⟩]
          ⟨100, 200, 10, 100, 10⟩)
        [⟨"a.txt", [1], none, none⟩, ⟨"b.txt", [2], none, none⟩]
        ⟨100, 200, 10, 100, 10⟩).chunks) :=
  ⟨by decide,
    update_after_ingest_idempotent (fun s => s)
      (fun bs : List Nat => if bs = [1] then "h1" else "h2")
      (fun _ => some "x") (fun _ _ _ _ => [])
      [⟨"a.txt", [1], none, none⟩, ⟨"b.txt", [2], none, none⟩]
      ⟨100, 200, 10, 100, 10⟩ (by decide)⟩
